import Mathlib

/-!
# imposm3: multipolygon ring classification and the element writers

A shallow embedding of `geom/multipolygon.go`, `writer/relations.go`,
`writer/ways.go` and of `Mapping.ElementFilters` in `mapping/config.go`.

* Go pointers to rings are identified with the position of the ring in the
  `rings` slice (the slice holds distinct pointers), so the Go maps
  `map[*Ring]bool` become duplicate-free lists of ring indexes.
* The GEOS library is an oracle: every call whose result the Go code inspects
  is a field of `GeosOracle`, addressed by ring index; so is the order in which
  a `range` walks a map.
* A Go panic is a `Stop.fault`, a returned `error` is a `Stop.err`.
* `int64` arithmetic is arithmetic on `Int` followed by `wrap64`.
* Geometry handles that a call destroys are logged, so that leaks can be stated.
-/

namespace Imposm

/-! ## Faults and errors -/

/-- Run-time panics of the Go program. `diverges` stands for a loop that never
returns (the fuel of the model ran out). -/
inductive Fault where
  | indexOutOfRange
  | nilDereference
  | diverges
  deriving DecidableEq, Repr

/-- An early stop of a call: a panic, or an `error` value handed to the caller. -/
inductive Stop where
  | fault (f : Fault)
  | err (msg : String)
  deriving DecidableEq, Repr

instance instDecidableEqExcept {ε α : Type} [DecidableEq ε] [DecidableEq α] :
    DecidableEq (Except ε α) := fun a b =>
  match a, b with
  | .ok x, .ok y => if h : x = y then isTrue (by rw [h]) else isFalse (fun e => h (by cases e; rfl))
  | .error x, .error y =>
    if h : x = y then isTrue (by rw [h]) else isFalse (fun e => h (by cases e; rfl))
  | .ok _, .error _ => isFalse (fun e => by cases e)
  | .error _, .ok _ => isFalse (fun e => by cases e)

/-! ## Data model -/

/-- The Go type `element.Tags`, `map[string]string`, as an association list. A
well-formed map has pairwise distinct keys. -/
abbrev Tags := List (String × String)

/-- The Go type `element.Way`, restricted to the fields the ring code reads. -/
structure Way where
  Id : Int
  Refs : List Int
  Tags : Tags
  deriving DecidableEq, Repr

/-- The Go type `geom.Ring`. `geom` is the GEOS handle (`none` is `nil`), `holes`
is the set `map[*Ring]bool` given by ring indexes. -/
structure Ring where
  ways : List Way
  refs : List Int
  geom : Option Nat
  area : Int
  containedBy : Int
  holes : List Nat
  deriving DecidableEq, Repr

/-- Go `m[k] = true` on a set of ring indexes. -/
def setInsert (s : List Nat) (k : Nat) : List Nat :=
  if k ∈ s then s else s ++ [k]

/-- Go `delete(m, k)` on a set of ring indexes. -/
def setDelete (s : List Nat) (k : Nat) : List Nat :=
  s.filter (fun x => x != k)

/-- The slice access `rings[idx]` with a signed index; panics out of range. -/
def getRing (rings : List Ring) (idx : Int) : Except Stop Ring :=
  if idx < 0 then .error (.fault .indexOutOfRange)
  else
    match rings[idx.toNat]? with
    | some r => .ok r
    | none => .error (.fault .indexOutOfRange)

/-- The `containedBy` field of `rings[k]` (`-1` out of range). -/
def cbOf (rings : List Ring) (k : Nat) : Int :=
  match rings[k]? with
  | some r => r.containedBy
  | none => -1

/-- The `holes` set of `rings[p]` (empty out of range). -/
def holesOf (rings : List Ring) (p : Nat) : List Nat :=
  match rings[p]? with
  | some r => r.holes
  | none => []

/-! ## `ringIsHole` -/

/-- The `for` loop of `ringIsHole`: follows `containedBy` from `idx` until `-1`
and returns `containedCounter`. The Go loop has no bound; the model stops with
`diverges` after `fuel` iterations. -/
def containedCounter (rings : List Ring) : Nat → Int → Nat → Except Stop Nat
  | 0, _, _ => .error (.fault .diverges)
  | fuel + 1, idx, counter =>
    match getRing rings idx with
    | .error e => .error e
    | .ok r =>
      if r.containedBy = -1 then .ok counter
      else containedCounter rings fuel r.containedBy (counter + 1)

/-- `ringIsHole(rings, idx)`: true iff the number of hops is odd. A chain
without a cycle visits at most `len(rings)` rings, so the fuel
`len(rings) + 1` only runs out where the Go loop does not return. -/
def ringIsHole (rings : List Ring) (idx : Nat) : Except Stop Bool :=
  match containedCounter rings (rings.length + 1) idx 0 with
  | .error e => .error e
  | .ok c => .ok (c % 2 == 1)

/-! ## The classification loop of `BuildRelGeometry` -/

/-- The results of the GEOS calls that `BuildRelGeometry` inspects, by ring
index: `prepare i` says `g.Prepare(rings[i].geom) != nil`,
`preparedContains i j` is `g.PreparedContains(testGeom_i, rings[j].geom)`,
`exteriorRing k` says `g.Clone(g.ExteriorRing(rings[k].geom)) != nil`;
`polygon`, `multiPolygon`, `buffer` and `asEwkbHex` say that the call returned
non-nil for the given shell and holes, resp. list of polygons. `rangeOrder s` is
the order in which a `range` over a Go map with the keys `s` visits them; the
language leaves it open, so it is part of the oracle. -/
structure GeosOracle where
  prepare : Nat → Bool
  preparedContains : Nat → Nat → Bool
  exteriorRing : Nat → Bool
  polygon : Nat → List Nat → Bool
  multiPolygon : List (Nat × List Nat) → Bool
  isValid : List (Nat × List Nat) → Bool
  buffer : List (Nat × List Nat) → Bool
  asEwkbHex : List (Nat × List Nat) → Bool
  rangeOrder : List Nat → List Nat

/-- The mutable state of the classification loop: the rings (their
`containedBy` and `holes` fields change) and the local map `shells`. -/
structure ClassState where
  rings : List Ring
  shells : List Nat
  deriving DecidableEq, Repr

/-- Lines 133-138: if `rings[j]` already has a parent, drop it from the parent's
`holes` and from `shells`. -/
def unparent (st : ClassState) (j : Nat) : Except Stop ClassState :=
  match getRing st.rings j with
  | .error e => .error e
  | .ok rj =>
    if rj.containedBy ≠ -1 then
      match getRing st.rings rj.containedBy with
      | .error e => .error e
      | .ok rp =>
        .ok { rings := st.rings.set rj.containedBy.toNat
                { rp with holes := setDelete rp.holes j },
              shells := setDelete st.shells j }
    else .ok st

/-- Line 140: `rings[j].containedBy = i`. -/
def setParent (st : ClassState) (i j : Nat) : Except Stop ClassState :=
  match getRing st.rings j with
  | .error e => .error e
  | .ok rj => .ok { st with rings := st.rings.set j { rj with containedBy := i } }

/-- Lines 142-146: add `rings[j]` as a hole of `rings[i]` or as a shell. -/
def addHoleOrShell (st : ClassState) (i j : Nat) : Except Stop ClassState :=
  match ringIsHole st.rings j with
  | .error e => .error e
  | .ok true =>
    match getRing st.rings i with
    | .error e => .error e
    | .ok ri =>
      .ok { st with rings := st.rings.set i { ri with holes := setInsert ri.holes j } }
  | .ok false => .ok { st with shells := setInsert st.shells j }

/-- The body of the inner loop (lines 132-147) for one pair `i < j`. -/
def classifyPair (g : GeosOracle) (i j : Nat) (st : ClassState) : Except Stop ClassState :=
  if g.preparedContains i j then
    match unparent st j with
    | .error e => .error e
    | .ok st1 =>
      match setParent st1 i j with
      | .error e => .error e
      | .ok st2 => addHoleOrShell st2 i j
  else .ok st

/-- The inner loop `for j := i + 1; j < totalRings; j++` over the remaining
values `js` of `j`. -/
def innerLoop (g : GeosOracle) (i : Nat) : List Nat → ClassState → Except Stop ClassState
  | [], st => .ok st
  | j :: js, st =>
    match classifyPair g i j st with
    | .error e => .error e
    | .ok st1 => innerLoop g i js st1

/-- One iteration of the outer loop (lines 127-153) for ring `i`. The call
`g.PreparedDestroy(testGeom)` releases the prepared geometry, not the geometry
of a ring. -/
def outerStep (g : GeosOracle) (n i : Nat) (st : ClassState) : Except Stop ClassState :=
  if g.prepare i then
    match innerLoop g i (List.range' (i + 1) (n - (i + 1))) st with
    | .error e => .error e
    | .ok st1 =>
      match getRing st1.rings i with
      | .error e => .error e
      | .ok ri =>
        if ri.containedBy = -1 then .ok { st1 with shells := setInsert st1.shells i }
        else .ok st1
  else .error (.err "Error while preparing geometry")

/-- The outer loop `for i := 0; i < totalRings; i++` over the remaining values
`is` of `i`. -/
def outerLoop (g : GeosOracle) (n : Nat) : List Nat → ClassState → Except Stop ClassState
  | [], st => .ok st
  | i :: is, st =>
    match outerStep g n i st with
    | .error e => .error e
    | .ok st1 => outerLoop g n is st1

/-- Lines 124-154 of `BuildRelGeometry`: `shells` is seeded with `rings[0]`
(a panic on an empty slice), then the two nested loops run. -/
def classify (g : GeosOracle) (rings : List Ring) : Except Stop ClassState :=
  match rings with
  | [] => .error (.fault .indexOutOfRange)
  | _ :: _ => outerLoop g rings.length (List.range rings.length) { rings := rings, shells := [0] }

/-! ## Elements, and the assembly of the polygons in `BuildRelGeometry` -/

/-- The geometry composed by `BuildRelGeometry`: its polygons, each given by the
index of the shell ring and the indexes of its interior rings, and whether it
went through `Buffer(result, 0)`. -/
structure MultiGeom where
  polygons : List (Nat × List Nat)
  buffered : Bool
  deriving DecidableEq, Repr

/-- The Go type `element.Member`; `Type_` (Go `Type`) is 0 for a node, 1 for a way, 2 for a
relation. -/
structure Member where
  Id : Int
  Type_ : Int
  Role : String
  Way : Option Way
  deriving DecidableEq, Repr

/-- The Go type `element.Geometry`; `Geom` is the handle (`none` is `nil`). -/
structure Geometry where
  Geom : Option MultiGeom
  deriving DecidableEq, Repr

/-- The Go type `element.Relation`. -/
structure Relation where
  Id : Int
  Tags : Tags
  Members : List Member
  Geom : Option Geometry
  deriving DecidableEq, Repr

/-- The loop over `shell.holes` (lines 159-167). `destroyed` logs the ring index
of every `g.Destroy(ring.geom)` call; the hole is destroyed before the `nil`
check of its cloned exterior ring. -/
def holesLoop (g : GeosOracle) :
    List Nat → List Nat → List Nat → List Nat × Except Stop (List Nat)
  | [], interiors, destroyed => (destroyed, .ok interiors)
  | hole :: rest, interiors, destroyed =>
    if g.exteriorRing hole then holesLoop g rest (interiors ++ [hole]) (destroyed ++ [hole])
    else (destroyed ++ [hole], .error (.err "Error while getting exterior ring."))

/-- The loop over `shells` (lines 157-179). -/
def shellsLoop (g : GeosOracle) (rings : List Ring) :
    List Nat → List (Nat × List Nat) → List Nat →
      List Nat × Except Stop (List (Nat × List Nat))
  | [], polygons, destroyed => (destroyed, .ok polygons)
  | shell :: rest, polygons, destroyed =>
    match holesLoop g (g.rangeOrder (holesOf rings shell)) [] destroyed with
    | (d1, .error e) => (d1, .error e)
    | (d1, .ok interiors) =>
      if g.exteriorRing shell then
        if g.polygon shell interiors then
          shellsLoop g rings rest (polygons ++ [(shell, interiors)]) (d1 ++ [shell])
        else (d1 ++ [shell], .error (.err "Error while building polygon."))
      else (d1 ++ [shell], .error (.err "Error while getting exterior ring."))

/-- Lines 180-211: one polygon or a multi-polygon, repair with `Buffer(0)`, and
the EWKB encoding. -/
def compose (g : GeosOracle) (polygons : List (Nat × List Nat)) : Except Stop MultiGeom :=
  if polygons.length = 1 ∨ g.multiPolygon polygons = true then
    if g.isValid polygons then
      if g.asEwkbHex polygons then .ok { polygons := polygons, buffered := false }
      else .error (.err "unable to create WKB for relation")
    else if g.buffer polygons then
      if g.asEwkbHex polygons then .ok { polygons := polygons, buffered := true }
      else .error (.err "unable to create WKB for relation")
    else .error (.err "Error while fixing geom with buffer(0)")
  else .error (.err "Error while building multi-polygon.")

/-- What a call of `BuildRelGeometry` did: the ring geometries it destroyed, in
call order, the relation as the call leaves it, and what it returned. -/
structure BuildResult where
  destroyed : List Nat
  rel : Relation
  outcome : Except Stop MultiGeom
  deriving DecidableEq, Repr

/-- The function `BuildRelGeometry` on a relation and its rings. No error return
runs a cleanup of the ring geometries; on success `rel.Geom` is set (line 212).
`MarkInserted` fills the `inserted` registry of a ring, which only feeds the
unused local `insertedWays`. -/
def BuildRelGeometry (g : GeosOracle) (rel : Relation) (rings : List Ring) : BuildResult :=
  match classify g rings with
  | .error e => { destroyed := [], rel := rel, outcome := .error e }
  | .ok st =>
    match shellsLoop g st.rings (g.rangeOrder st.shells) [] [] with
    | (d, .error e) => { destroyed := d, rel := rel, outcome := .error e }
    | (d, .ok polygons) =>
      match compose g polygons with
      | .error e => { destroyed := d, rel := rel, outcome := .error e }
      | .ok geom =>
        { destroyed := d, rel := { rel with Geom := some { Geom := some geom } },
          outcome := .ok geom }

/-! ## `relationTags` -/

/-- Go `m[k]` with the `ok` flag. -/
def tagsGet? (t : Tags) (k : String) : Option String := t.lookup k

/-- Go `m[k]` without the flag: the empty string for a missing key. -/
def tagsGet (t : Tags) (k : String) : String := (t.lookup k).getD ""

/-- Go `m[k] = v`. -/
def tagsSet : Tags → String → String → Tags
  | [], k, v => [(k, v)]
  | (k1, v1) :: rest, k, v => if k1 = k then (k, v) :: rest else (k1, v1) :: tagsSet rest k v

/-- The function `relationTags`: the loop copies every entry of `relTags` into a
new map; the code that read `wayTags` is commented out. -/
def relationTags (relTags _wayTags : Tags) : Tags :=
  relTags.foldl (fun result kv => tagsSet result kv.1 kv.2) []

/-! ## `BuildRings` -/

/-- The text of `ErrorNoRing`. -/
def ErrorNoRing : Stop := .err "ErrorNoRing"

/-- The ring helpers that `BuildRings` calls and that live outside
`multipolygon.go`, as results of the calls: `Ring.IsClosed`, whether
`Ring.TryClose(maxRingGap)` returns true, `mergeRings`, `Polygon(g, ring.nodes)`
(a fresh handle or an error text) and `Geom.Area`. -/
structure RingOps where
  isClosed : Ring → Bool
  tryClose : Ring → Bool
  mergeRings : List Ring → List Ring
  polygon : Ring → Except String Nat
  area : Nat → Int

/-- Modelled from the spec: `NewRing`, which is in `ring.go`: "Constructed from
a single way; initial ways = {way.id}, nodes = way.nodes, containedBy = -1,
holes = empty". -/
def NewRing (w : Way) : Ring :=
  { ways := [w], refs := w.Refs, geom := none, area := 0, containedBy := -1, holes := [] }

/-- The function `destroyRings`: destroys every non-nil geometry and returns the
handles it destroyed. -/
def destroyRings (rings : List Ring) : List Nat :=
  rings.filterMap (fun r => r.geom)

/-- The first loop of `BuildRings` (lines 71-81) over the remaining rings, with
the lists `completeRings` and `incompleteRings` and the log `created` of the
handles that `Polygon` returned; the last component is the error of a failed
`Polygon` call. -/
def polygonizeClosed (ops : RingOps) :
    List Ring → List Ring → List Ring → List Nat →
      List Ring × List Ring × List Nat × Option String
  | [], complete, incomplete, created => (complete, incomplete, created, none)
  | r :: rest, complete, incomplete, created =>
    if ops.isClosed r then
      match ops.polygon r with
      | .error e => (complete, incomplete, created, some e)
      | .ok h =>
        polygonizeClosed ops rest (complete ++ [{ r with geom := some h }]) incomplete
          (created ++ [h])
    else polygonizeClosed ops rest complete (incomplete ++ [r]) created

/-- Modelled from the spec: the effect of a successful `TryClose`, which is in
`ring.go`: "returns true and appends the first node to the end". -/
def closedByGap (r : Ring) : Ring :=
  { r with refs := r.refs ++ r.refs.take 1 }

/-- The test `!ring.IsClosed() && !ring.TryClose(maxRingGap)` of line 90, as the
ring to go on with (`none` when the test is true). -/
def closeRing (ops : RingOps) (r : Ring) : Option Ring :=
  if ops.isClosed r then some r
  else if ops.tryClose r then some (closedByGap r)
  else none

/-- The second loop of `BuildRings` (lines 89-98) over the remaining merged
rings; `done` are the rings already handled. Returns `mergedRings` as it is when
the loop stops, the log `created`, and the error if the loop stopped early. -/
def polygonizeMerged (ops : RingOps) :
    List Ring → List Ring → List Nat → List Ring × List Nat × Option Stop
  | [], done, created => (done, created, none)
  | r :: rest, done, created =>
    match closeRing ops r with
    | none => (done ++ r :: rest, created, some ErrorNoRing)
    | some r1 =>
      match ops.polygon r1 with
      | .error e => (done ++ { r1 with geom := none } :: rest, created, some (.err e))
      | .ok h =>
        polygonizeMerged ops rest (done ++ [{ r1 with geom := some h }]) (created ++ [h])

/-- Line 104: `r.area = r.geom.Area()`. -/
def setArea (ops : RingOps) (r : Ring) : Except Stop Ring :=
  match r.geom with
  | none => .error (.fault .nilDereference)
  | some h => .ok { r with area := ops.area h }

/-- The loop of lines 103-105 over `completeRings`. -/
def setAreas (ops : RingOps) : List Ring → Except Stop (List Ring)
  | [] => .ok []
  | r :: rest =>
    match setArea ops r with
    | .error e => .error e
    | .ok r1 =>
      match setAreas ops rest with
      | .error e => .error e
      | .ok rs => .ok (r1 :: rs)

/-- Lines 63-68: a ring for every member with a resolved way. -/
def memberRings (rel : Relation) : List Ring :=
  rel.Members.filterMap (fun m => m.Way.map NewRing)

/-- What a call of `BuildRings` did: the handles that `Polygon` returned, the
handles the deferred cleanup destroyed, and what the call returned. -/
structure RingsResult where
  created : List Nat
  destroyed : List Nat
  outcome : Except Stop (List Ring)

/-- The function `BuildRings`. The areas are `float64` in the code and integers
here. `sort.Sort` leaves the order of rings of equal area open; the model
returns one of the orders sorted by `area`, large to small (that of an insertion
sort), and only the length of the result is used below. The deferred function
runs `destroyRings` on `mergedRings` and `completeRings` when `err != nil`. -/
def BuildRings (ops : RingOps) (rel : Relation) : RingsResult :=
  match polygonizeClosed ops (memberRings rel) [] [] [] with
  | (complete, _, created, some e) =>
    { created := created,
      destroyed := destroyRings [] ++ destroyRings complete,
      outcome := .error (.err e) }
  | (complete, incomplete, created, none) =>
    let merged := ops.mergeRings incomplete
    if complete.length + merged.length = 0 then
      { created := created,
        destroyed := destroyRings merged ++ destroyRings complete,
        outcome := .error ErrorNoRing }
    else
      match polygonizeMerged ops merged [] created with
      | (merged1, created1, some e) =>
        { created := created1,
          destroyed := destroyRings merged1 ++ destroyRings complete,
          outcome := .error e }
      | (merged1, created1, none) =>
        match setAreas ops (complete ++ merged1) with
        | .error e => { created := created1, destroyed := [], outcome := .error e }
        | .ok withArea =>
          { created := created1, destroyed := [],
            outcome := .ok (withArea.insertionSort (fun a b => a.area ≥ b.area)) }

/-! ## `PrepareRelation` and `Build` -/

/-- The Go type `preparedRelation` (the `srid` is part of the library oracle). -/
structure PreparedRelation where
  rings : List Ring
  rel : Relation

/-- The function `PrepareRelation`: `BuildRings`, then
`rel.Tags = relationTags(rel.Tags, rings[0].ways[0].Tags)`. -/
def PrepareRelation (ops : RingOps) (rel : Relation) : Except Stop PreparedRelation :=
  match (BuildRings ops rel).outcome with
  | .error e => .error e
  | .ok rings =>
    match rings with
    | [] => .error (.fault .indexOutOfRange)
    | r0 :: _ =>
      match r0.ways with
      | [] => .error (.fault .indexOutOfRange)
      | w0 :: _ => .ok { rings := rings, rel := { rel with Tags := relationTags rel.Tags w0.Tags } }

/-- The method `preparedRelation.Build` with its two results: on an error of
`BuildRelGeometry` it returns `nil, err`, else `prep.rel, nil`. -/
def Build (g : GeosOracle) (prep : PreparedRelation) : Option Relation × Option Stop :=
  let res := BuildRelGeometry g prep.rel prep.rings
  match res.outcome with
  | .error e => (none, some e)
  | .ok _ => (some res.rel, none)

/-! ## The relation writer -/

/-- The range of `int64`: the value of an arithmetic result after wrap-around. -/
def wrap64 (x : Int) : Int := (x + 2 ^ 63) % 2 ^ 64 - 2 ^ 63

/-- Modelled from the spec: the constant `element.RelIdOffset`, declared outside
the given sources: "a large negative offset, e.g. -10^17". -/
def RelIdOffset : Int := -100000000000000000

/-- The method `RelationWriter.relId` on `int64`. -/
def relId (singleIdSpace : Bool) (id : Int) : Int :=
  if !singleIdSpace then wrap64 (-id) else wrap64 (RelIdOffset - id)

/-- Go `strconv.FormatInt(id, 10)`. -/
def FormatInt (id : Int) : String := toString id

/-- Go `strings.Join(xs, ", ")`. -/
def joinComma (xs : List String) : String := String.intercalate ", " xs

/-- An error of a cache: `cache.NotFound` or any other error. -/
inductive CacheErr where
  | notFound
  | other (msg : String)
  deriving DecidableEq, Repr

/-- What the relation writer does to its collaborators, in call order. -/
inductive Event where
  | addRelations
  | fillMembers (relId : Int)
  | insertPoint (id : Int) (tags : Tags) (tables : List String)
  | insertPolygon (id : Int) (tags : Tags) (geom : Option MultiGeom) (tables : List String)
  | warn (msg : String)
  | destroy (geom : Option MultiGeom)
  | putWay (way : Option Int)
  | diffAddMembers (relId : Int)
  | diffAddWay (way : Int)
  | expireNodes (way : Int)
  deriving DecidableEq, Repr

/-- The collaborators of the relation writer: the two matchers (the tables a
relation matches), the inserter (the error text of a failed insert), the
`Level()` of an error text that implements `ErrorLevel`, the two caches, the
ring helpers, the GEOS results for the rings of a relation, the optional
limiter, `mapping.SelectRelationPolygons`, and whether a diff cache and an
expire collector are configured. -/
structure WriterEnv where
  singleIdSpace : Bool
  streetMatcher : Relation → List String
  polygonMatcher : Relation → List String
  insertPoint : Relation → List String → Option String
  insertPolygon : Relation → List String → Option String
  errorLevel : String → Option Int
  fillMembers : List Member → Except CacheErr (List Member)
  fillWay : Way → Except CacheErr Way
  ringOps : RingOps
  geos : List Ring → GeosOracle
  limiter : Option (Option MultiGeom → Except String (List MultiGeom))
  selectRelationPolygons : Relation → List Member
  putWay : Option Way → Option String
  diffCache : Bool
  expireor : Bool

/-- The test `errl, ok := err.(ErrorLevel); !ok || errl.Level() > 0` followed
by `log.Warn(err)`. -/
def warnLevel (env : WriterEnv) (msg : String) : List Event :=
  match env.errorLevel msg with
  | none => [.warn msg]
  | some l => if l > 0 then [.warn msg] else []

/-- The test `err != cache.NotFound` followed by `log.Warn(err)`. -/
def warnCache (e : CacheErr) : List Event :=
  match e with
  | .notFound => []
  | .other msg => [.warn msg]

/-- The member loop of the street branch (lines 81-94) over the remaining
members, with the slices `streets` and `houses`. -/
def streetHouses : List Member → List String → List String → List String × List String
  | [], streets, houses => (streets, houses)
  | m :: rest, streets, houses =>
    let streets1 :=
      if m.Role = "street" ∧ m.Type_ = 1 then streets ++ [FormatInt m.Id] else streets
    let houses1 :=
      if m.Role = "house" ∧ (m.Type_ = 1 ∨ m.Type_ = 2) then
        houses ++ [FormatInt (if m.Type_ = 2 then wrap64 (m.Id * -1) else m.Id)]
      else houses
    streetHouses rest streets1 houses1

/-- What handling one relation did: the calls made, the panic that ended it (if
any), and the relation as the writer leaves it. -/
structure StepResult where
  events : List Event
  fault : Option Fault
  rel : Relation
  deriving DecidableEq, Repr

/-- The street branch (lines 78-115). -/
def streetBranch (env : WriterEnv) (r : Relation) : StepResult :=
  match streetHouses r.Members [] [] with
  | (streets, houses) =>
    if streets.length > 0 ∧ houses.length > 0 then
      let tags1 := if streets.length > 0 then tagsSet r.Tags "streets" (joinComma streets)
        else r.Tags
      let tags2 := if houses.length > 0 then tagsSet tags1 "houses" (joinComma houses)
        else tags1
      let r1 : Relation := { r with Tags := tags2 }
      let tables := env.streetMatcher r1
      let rel : Relation := { r1 with Id := relId env.singleIdSpace r1.Id }
      match env.insertPoint rel tables with
      | some msg =>
        { events := [.addRelations, .insertPoint rel.Id rel.Tags tables] ++ warnLevel env msg,
          fault := none, rel := r1 }
      | none =>
        { events := [.addRelations, .insertPoint rel.Id rel.Tags tables], fault := none,
          rel := r1 }
    else { events := [.addRelations], fault := none, rel := r }

/-- The accumulators of the member loop of the polygon path. -/
structure MemberScan where
  members : List Member
  adminCentre : List String
  subareas : List String

/-- The member loop of the polygon path (lines 130-154); an error of
`Coords.FillWay` ends the relation. The projection `NodesToSrid` acts on
coordinates, which the model does not carry. -/
def scanMembers (env : WriterEnv) : List Member → MemberScan → Except CacheErr MemberScan
  | [], acc => .ok acc
  | m :: rest, acc =>
    let adm :=
      if m.Role = "admin_centre" ∧ m.Type_ = 0 then acc.adminCentre ++ [FormatInt m.Id]
      else acc.adminCentre
    let sub :=
      if m.Role = "subarea" ∧ (m.Type_ = 1 ∨ m.Type_ = 2) then
        acc.subareas ++ [FormatInt (if m.Type_ = 2 then wrap64 (m.Id * -1) else m.Id)]
      else acc.subareas
    match m.Way with
    | none => scanMembers env rest { members := acc.members ++ [m], adminCentre := adm,
                                     subareas := sub }
    | some w =>
      match env.fillWay w with
      | .error e => .error e
      | .ok w1 =>
        scanMembers env rest { members := acc.members ++ [{ m with Way := some w1 }],
                               adminCentre := adm, subareas := sub }

/-- The insert loop over the clipped parts (lines 204-215); a failed insert
goes on with the next part. -/
def insertParts (env : WriterEnv) (r : Relation) (tables : List String) :
    List MultiGeom → List Event
  | [] => []
  | part :: rest =>
    let rel : Relation :=
      { r with Id := relId env.singleIdSpace r.Id, Geom := some { Geom := some part } }
    let ev : List Event := [.insertPolygon rel.Id rel.Tags (some part) tables]
    match env.insertPolygon rel tables with
    | some msg => ev ++ warnLevel env msg ++ insertParts env r tables rest
    | none => ev ++ insertParts env r tables rest

/-- Lines 228-249: the inserted-ways registry, the diff cache, the expire
collector and the final `geos.Destroy(r.Geom.Geom)`. -/
def recordInserted (env : WriterEnv) (r : Relation) (allMembers : List Member)
    (geom : Option MultiGeom) : List Event :=
  let put : List Event := (env.selectRelationPolygons r).flatMap (fun m =>
    match env.putWay m.Way with
    | some msg => [Event.putWay (m.Way.map (fun w => w.Id)), Event.warn msg]
    | none => [Event.putWay (m.Way.map (fun w => w.Id))])
  let diff : List Event :=
    if env.diffCache then
      Event.diffAddMembers r.Id :: allMembers.filterMap (fun m => m.Way.map (fun w => Event.diffAddWay w.Id))
    else []
  let expire : List Event :=
    if env.expireor then allMembers.filterMap (fun m => m.Way.map (fun w => Event.expireNodes w.Id))
    else []
  put ++ diff ++ expire ++ [Event.destroy geom]

/-- Lines 183-249: build the multipolygon and insert it. In the error branch the
variable `r` holds the first result of `Build`, and `r.Geom` is read from it. -/
def buildAndInsert (env : WriterEnv) (prep : PreparedRelation) (tables : List String)
    (allMembers : List Member) (events : List Event) : StepResult :=
  match Build (env.geos prep.rings) prep with
  | (_, some (.fault f)) => { events := events, fault := some f, rel := prep.rel }
  | (r, some (.err msg)) =>
    match r with
    | none => { events := events, fault := some .nilDereference, rel := prep.rel }
    | some r1 =>
      let destroy : List Event :=
        match r1.Geom with
        | none => []
        | some gm => if gm.Geom.isSome then [Event.destroy gm.Geom] else []
      { events := events ++ destroy ++ warnLevel env msg, fault := none, rel := r1 }
  | (none, none) => { events := events, fault := some .nilDereference, rel := prep.rel }
  | (some r1, none) =>
    match r1.Geom with
    | none => { events := events, fault := some .nilDereference, rel := r1 }
    | some gm =>
      match env.limiter with
      | some clip =>
        match clip gm.Geom with
        | .error msg => { events := events ++ [Event.warn msg], fault := none, rel := r1 }
        | .ok parts =>
          { events := events ++ insertParts env r1 tables parts ++
              recordInserted env r1 allMembers gm.Geom,
            fault := none, rel := r1 }
      | none =>
        let rel : Relation := { r1 with Id := relId env.singleIdSpace r1.Id }
        let ev : List Event := [Event.insertPolygon rel.Id rel.Tags gm.Geom tables]
        match env.insertPolygon rel tables with
        | some msg => { events := events ++ ev ++ warnLevel env msg, fault := none, rel := r1 }
        | none =>
          { events := events ++ ev ++ recordInserted env r1 allMembers gm.Geom, fault := none,
            rel := r1 }

/-- The polygon path (lines 121-249) for a `boundary` or `multipolygon`
relation. -/
def polygonPath (env : WriterEnv) (r : Relation) : StepResult :=
  let ev0 : List Event := [.addRelations, .fillMembers r.Id]
  match env.fillMembers r.Members with
  | .error e => { events := ev0 ++ warnCache e, fault := none, rel := r }
  | .ok members =>
    match scanMembers env members { members := [], adminCentre := [], subareas := [] } with
    | .error e => { events := ev0 ++ warnCache e, fault := none, rel := { r with Members := members } }
    | .ok scan =>
      let tags1 := if scan.adminCentre.length > 0 then
          tagsSet r.Tags "admin_centre" (joinComma scan.adminCentre)
        else r.Tags
      let tags2 := if scan.subareas.length > 0 then
          tagsSet tags1 "subareas" (joinComma scan.subareas)
        else tags1
      let r1 : Relation := { r with Members := scan.members, Tags := tags2 }
      let allMembers := r1.Members
      match PrepareRelation env.ringOps r1 with
      | .error (.fault f) => { events := ev0, fault := some f, rel := r1 }
      | .error (.err msg) => { events := ev0 ++ warnLevel env msg, fault := none, rel := r1 }
      | .ok prep =>
        let tables := env.polygonMatcher prep.rel
        if tables.length = 0 then { events := ev0, fault := none, rel := prep.rel }
        else buildAndInsert env prep tables allMembers ev0

/-- The body of the `for r := range rw.rel` loop for one relation. -/
def processRelation (env : WriterEnv) (r : Relation) : StepResult :=
  if tagsGet r.Tags "type" = "street" ∨ tagsGet r.Tags "type" = "associatedStreet" then
    streetBranch env r
  else if ¬ (tagsGet r.Tags "type" = "boundary" ∨ tagsGet r.Tags "type" = "multipolygon") then
    { events := [.addRelations], fault := none, rel := r }
  else polygonPath env r

/-- What the writer goroutine did: the calls made, in order, the number of
relations it took from the channel, and the panic that ended it (if any). -/
structure LoopResult where
  events : List Event
  taken : Nat
  fault : Option Fault
  deriving DecidableEq, Repr

/-- The method `RelationWriter.loop` on the relations the channel delivers. A
panic ends the goroutine; the relations behind it are not taken. -/
def loop (env : WriterEnv) : List Relation → LoopResult
  | [] => { events := [], taken := 0, fault := none }
  | r :: rest =>
    let s := processRelation env r
    match s.fault with
    | some f => { events := s.events, taken := 1, fault := some f }
    | none =>
      let l := loop env rest
      { events := s.events ++ l.events, taken := l.taken + 1, fault := l.fault }

/-! ## Reference functions used to state the loop invariants -/

/-- The parent of ring `j` after the outer iterations `0 .. m-1`: the greatest
`i < m` with `i < j` and `preparedContains i j`, or `-1`. -/
def parentAt (g : GeosOracle) : Nat → Nat → Int
  | 0, _ => -1
  | m + 1, j => if m < j ∧ g.preparedContains m j = true then (m : Int) else parentAt g m j

/-- A ring as `NewRing` leaves it: no parent, no holes. -/
def Ring.isFresh (r : Ring) : Prop := r.containedBy = -1 ∧ r.holes = []

instance (r : Ring) : Decidable r.isFresh := by
  unfold Ring.isFresh; exact inferInstance

/-- Nesting depth of ring `k` under the final parents `parentAt g k k`, with
fuel (a chain from `k` has at most `k` hops). -/
def depthFuel (g : GeosOracle) : Nat → Nat → Nat
  | 0, _ => 0
  | f + 1, k =>
    if parentAt g k k = -1 then 0 else depthFuel g f (parentAt g k k).toNat + 1

/-- Nesting depth of ring `k` under the final parents. -/
def fdepth (g : GeosOracle) (k : Nat) : Nat := depthFuel g (k + 1) k

/-- The part of the loop invariant on the two kinds of sets, for the intended
parent function `c` and the number `b` of completed outer iterations. -/
structure InvCore (g : GeosOracle) (n : Nat) (c : Nat → Int) (b : Nat)
    (st : ClassState) : Prop where
  len : st.rings.length = n
  holes : ∀ p k, p < n →
    (k ∈ holesOf st.rings p ↔ (k < n ∧ c k = (p : Int) ∧ fdepth g p % 2 = 0))
  shells : ∀ k, k ∈ st.shells ↔
    (k < n ∧ (k = 0 ∨ (c k = -1 ∧ k < b) ∨ (c k ≠ -1 ∧ fdepth g (c k).toNat % 2 = 1)))
  nodupS : st.shells.Nodup
  nodupH : ∀ p, (holesOf st.rings p).Nodup

/-- The `containedBy` fields agree with the parent function `c`. -/
def CbAgree (n : Nat) (c : Nat → Int) (st : ClassState) : Prop :=
  ∀ k, k < n → cbOf st.rings k = c k

/-- The intended parent function before the pair `(i, j)` is handled. -/
def cAt (g : GeosOracle) (i j : Nat) (k : Nat) : Int :=
  if k < j then parentAt g (i + 1) k else parentAt g i k

/-- A freshly built ring: no parent, no holes, a live geometry. -/
def freshRing : Ring :=
  { ways := [], refs := [], geom := some 0, area := 0, containedBy := -1, holes := [] }

/-- A library in which every call succeeds and ring `i` contains ring `j`
exactly when `i < j`: the nested rings of scenario S5. Maps are walked in
insertion order. -/
def nestedGeos : GeosOracle where
  prepare := fun _ => true
  preparedContains := fun i j => decide (i < j)
  exteriorRing := fun _ => true
  polygon := fun _ _ => true
  multiPolygon := fun _ => true
  isValid := fun _ => true
  buffer := fun _ => true
  asEwkbHex := fun _ => true
  rangeOrder := fun s => s

/-- A relation without tags and members. -/
def emptyRelation : Relation := { Id := 1, Tags := [], Members := [], Geom := none }

/-- A library in which `Prepare` returns `nil`. -/
def noPrepareGeos : GeosOracle := { nestedGeos with prepare := fun _ => false }

/-- A library in which no ring contains another and the exterior ring of ring 0
cannot be cloned. -/
def noExteriorGeos : GeosOracle :=
  { nestedGeos with preparedContains := fun _ _ => false, exteriorRing := fun k => decide (k ≠ 0) }

/-- Ring helpers for the examples: a ring is closed when it has at least four
node references and the first equals the last, no gap can be bridged, nothing is
merged, and `Polygon` succeeds. -/
def exampleRingOps : RingOps where
  isClosed := fun r => decide (4 ≤ r.refs.length) && (r.refs.head? == r.refs.getLast?)
  tryClose := fun _ => false
  mergeRings := fun rs => rs
  polygon := fun r => .ok r.refs.length
  area := fun h => h

/-- Ring helpers as `exampleRingOps`, but `Polygon` fails. -/
def noPolygonRingOps : RingOps := { exampleRingOps with polygon := fun _ => .error "polygon" }

/-- A relation with one open way 1-2-3. -/
def openWayRelation : Relation :=
  { Id := 1, Tags := [("type", "multipolygon")],
    Members := [{ Id := 10, Type_ := 1, Role := "outer",
                  Way := some { Id := 10, Refs := [1, 2, 3], Tags := [] } }],
    Geom := none }

/-- A relation with one closed way 1-2-3-4-1 (scenario S1). -/
def closedWayRelation : Relation :=
  { Id := 1, Tags := [("type", "multipolygon")],
    Members := [{ Id := 10, Type_ := 1, Role := "outer",
                  Way := some { Id := 10, Refs := [1, 2, 3, 4, 1], Tags := [] } }],
    Geom := none }

/-- The list S of C10: the decimal ids, in member order, of the members with
role `street` and kind way. -/
def specStreets (ms : List Member) : List String :=
  (ms.filter (fun m => decide (m.Role = "street" ∧ m.Type_ = 1))).map (fun m => FormatInt m.Id)

/-- The list H of C10: the decimal ids, in member order, of the members with
role `house` and kind way or relation, relation ids negated (in `int64`). -/
def specHouses (ms : List Member) : List String :=
  (ms.filter (fun m => decide (m.Role = "house" ∧ (m.Type_ = 1 ∨ m.Type_ = 2)))).map
    (fun m => FormatInt (if m.Type_ = 2 then wrap64 (-m.Id) else m.Id))

/-- An insert call. -/
def Event.isInsert : Event → Bool
  | .insertPoint _ _ _ => true
  | .insertPolygon _ _ _ _ => true
  | _ => false

/-- A call that belongs to the polygon path. -/
def Event.isPolygonPath : Event → Bool
  | .addRelations => false
  | .insertPoint _ _ _ => false
  | .warn _ => false
  | _ => true

/-- Collaborators for the examples: every call succeeds, every relation matches
one table, no limiter, no diff cache, no expire collector. -/
def exampleEnv : WriterEnv where
  singleIdSpace := false
  streetMatcher := fun _ => ["streets"]
  polygonMatcher := fun _ => ["polygons"]
  insertPoint := fun _ _ => none
  insertPolygon := fun _ _ => none
  errorLevel := fun _ => none
  fillMembers := fun ms => .ok ms
  fillWay := fun w => .ok w
  ringOps := exampleRingOps
  geos := fun _ => nestedGeos
  limiter := none
  selectRelationPolygons := fun r => r.Members
  putWay := fun _ => none
  diffCache := false
  expireor := false

/-- Collaborators as `exampleEnv`, but `Prepare` returns `nil`, so that
`BuildRelGeometry` returns an error. -/
def failingBuildEnv : WriterEnv := { exampleEnv with geos := fun _ => noPrepareGeos }

/-- The relation of scenario S6. -/
def streetRelation : Relation :=
  { Id := 5, Tags := [("type", "associatedStreet")],
    Members := [{ Id := 7, Type_ := 1, Role := "street", Way := none },
                { Id := 11, Type_ := 1, Role := "house", Way := none }],
    Geom := none }

/-! ## Program points of the classification loop -/

/-- Every `containedBy` of the state is `-1` or an index below the own index of
the ring (and so within the slice). -/
def Bounded (st : ClassState) : Prop :=
  ∀ k, k < st.rings.length →
    cbOf st.rings k = -1 ∨ (0 ≤ cbOf st.rings k ∧ cbOf st.rings k < (k : Int))

/-- The indexes that the loop of `ringIsHole` reads, in order, starting at
`idx` (the run of `containedCounter` with the same fuel). -/
def chainFrom (rings : List Ring) : Nat → Int → List Int
  | 0, _ => []
  | fuel + 1, idx =>
    match getRing rings idx with
    | .error _ => []
    | .ok r => if r.containedBy = -1 then [idx] else idx :: chainFrom rings fuel r.containedBy

/-- The state in which the classification loop reaches the pair `(i, j)`: the
outer iterations `0 .. i-1` are done, `Prepare` of ring `i` succeeded, and the
inner iterations `i+1 .. j-1` of the outer iteration `i` are done. -/
def stateAtPair (g : GeosOracle) (rings : List Ring) (i j : Nat) : Except Stop ClassState :=
  match rings with
  | [] => .error (.fault .indexOutOfRange)
  | _ :: _ =>
    match outerLoop g rings.length (List.range i) { rings := rings, shells := [0] } with
    | .error e => .error e
    | .ok st =>
      if g.prepare i then innerLoop g i (List.range' (i + 1) (j - (i + 1))) st
      else .error (.err "Error while preparing geometry")

/-- The rest of the classification loop from the pair `(i, j)` on: the inner
iterations `j ..` of the outer iteration `i`, its shell test, and the outer
iterations `i+1 ..`. -/
def runFromPair (g : GeosOracle) (n i j : Nat) (st : ClassState) : Except Stop ClassState :=
  match innerLoop g i (List.range' j (n - j)) st with
  | .error e => .error e
  | .ok st1 =>
    match getRing st1.rings i with
    | .error e => .error e
    | .ok ri =>
      outerLoop g n (List.range' (i + 1) (n - (i + 1)))
        (if ri.containedBy = -1 then { st1 with shells := setInsert st1.shells i } else st1)

/-! ## The way writer (`writer/ways.go`) -/

/-- What the way writer does to its collaborators, in call order: the progress
counter, a log line, and `insertBuffer.Insert(match.Table, row)` with the row
built from the way and its geometry. -/
inductive WayEvent where
  | addWays
  | log (msg : String)
  | insert (table : String) (id : Int) (geom : Nat)
  deriving DecidableEq, Repr

/-- An insert call of the way writer. -/
def WayEvent.isInsert : WayEvent → Bool
  | .insert _ _ _ => true
  | _ => false

/-- An error of a geometry builder: its text and, when it implements
`ErrorLevel`, its `Level()`. -/
structure GeomError where
  msg : String
  level : Option Int
  deriving DecidableEq, Repr

/-- The collaborators of the way writer: the inserted-ways registry, the coord
cache, the two matchers (the tables of the matches), `Way.IsClosed`, and the two
geometry builders `geom.LineStringWKB` and `geom.PolygonWKB`. -/
structure WayEnv where
  isInserted : Int → Except String Bool
  fillWay : Way → Except CacheErr Way
  lineStringMatcher : Way → List String
  polygonMatcher : Way → List String
  isClosed : Way → Bool
  lineStringWKB : Way → Except GeomError Nat
  polygonWKB : Way → Except GeomError Nat

/-- Lines 73-81 and 92-100: an error with `Level() <= 0` is dropped silently,
any other error is logged; in both cases the loop goes on with the next way. -/
def geomErrorLog (e : GeomError) : List WayEvent :=
  match e.level with
  | some l => if l ≤ 0 then [] else [.log e.msg]
  | none => [.log e.msg]

/-- Lines 82-85 and 101-104: one insert per match. -/
def insertRows (tables : List String) (w : Way) (geom : Nat) : List WayEvent :=
  tables.map (fun t => WayEvent.insert t w.Id geom)

/-- The polygon pass (lines 88-106). -/
def polygonPass (env : WayEnv) (w : Way) : List WayEvent :=
  if env.isClosed w then
    if (env.polygonMatcher w).length > 0 then
      match env.polygonWKB w with
      | .error e => geomErrorLog e
      | .ok geom => insertRows (env.polygonMatcher w) w geom
    else []
  else []

/-- The body of the loop of `WayWriter.loop` for one way (lines 54-106). The
`continue` of a failed linestring build (lines 76, 80) leaves the body before
the polygon pass. `proj.NodesToMerc` acts on coordinates, which the model does
not carry. -/
def processWay (env : WayEnv) (w : Way) : List WayEvent :=
  match env.isInserted w.Id with
  | .error msg => [.addWays, .log msg]
  | .ok true => [.addWays]
  | .ok false =>
    match env.fillWay w with
    | .error _ => [.addWays]
    | .ok w1 =>
      if (env.lineStringMatcher w1).length > 0 then
        match env.lineStringWKB w1 with
        | .error e => [.addWays] ++ geomErrorLog e
        | .ok geom =>
          [.addWays] ++ insertRows (env.lineStringMatcher w1) w1 geom ++ polygonPass env w1
      else [.addWays] ++ polygonPass env w1

/-- The method `WayWriter.loop` on the ways the channel delivers. -/
def wayLoop (env : WayEnv) (ways : List Way) : List WayEvent :=
  ways.flatMap (processWay env)

/-- A closed way 1-2-3-4-1. -/
def closedWay : Way := { Id := 42, Refs := [1, 2, 3, 4, 1], Tags := [("building", "yes")] }

/-- Collaborators for the examples: the way is not registered, its coordinates
are found, it matches the linestring table `roads` and the polygon table
`buildings`, it is closed, and both geometries build. -/
def exampleWayEnv : WayEnv where
  isInserted := fun _ => .ok false
  fillWay := fun w => .ok w
  lineStringMatcher := fun _ => ["roads"]
  polygonMatcher := fun _ => ["buildings"]
  isClosed := fun w => decide (4 ≤ w.Refs.length) && (w.Refs.head? == w.Refs.getLast?)
  lineStringWKB := fun _ => .ok 1
  polygonWKB := fun _ => .ok 2

/-- Collaborators as `exampleWayEnv`, but the linestring geometry does not
build. -/
def failingLineStringEnv : WayEnv :=
  { exampleWayEnv with lineStringWKB := fun _ => .error { msg := "linestring", level := some 1 } }

/-! ## `Mapping.ElementFilters` (`mapping/config.go`) -/

/-- The Go type `mapping.Filters`; a pair is `[2]string`, `none` is a `nil`
pointer. -/
structure Filters where
  ExcludeTags : Option (List (String × String))
  IncludeTags : Option (List (String × String))

/-- The Go type `mapping.Table`, restricted to the field `Filters`. -/
structure Table where
  Filters : Option Filters

/-- The Go type `mapping.ElementFilter`. -/
abbrev ElementFilter := Tags → Bool

/-- The closure of lines 240-252 for the pair it reads from `filterKeyVal`. -/
def excludeFilter (filterKeyVal : String × String) (tags : Tags) : Bool :=
  match tagsGet? tags filterKeyVal.1 with
  | some v => if filterKeyVal.2 = "__any__" ∨ v = filterKeyVal.2 then false else true
  | none => if filterKeyVal.2 = "__nil__" then false else true

/-- The closure of lines 257-264 for the pair it reads from `filterKeyVal`. -/
def includeFilter (filterKeyVal : String × String) (tags : Tags) : Bool :=
  match tagsGet? tags filterKeyVal.1 with
  | some v => if filterKeyVal.2 = "__any__" ∨ v = filterKeyVal.2 then true else false
  | none => false

/-- The value of the loop variable `filterKeyVal` that the closure made in
iteration `idx` reads when it is called after the loop. The closures capture
the variable, not its value: with one variable per loop (Go before 1.22, and
every package without a `go` directive of 1.22 or later) that is the last pair
of the slice, with one variable per iteration it is the pair of the iteration. -/
def capturedPair (perIteration : Bool) (pairs : List (String × String)) (idx : Nat) :
    Option (String × String) :=
  if perIteration then pairs[idx]? else pairs.getLast?

/-- One of the two `range` loops over the pairs: a closure per iteration. -/
def loopFilters (perIteration : Bool) (body : String × String → ElementFilter)
    (pairs : List (String × String)) : List ElementFilter :=
  (List.range pairs.length).filterMap (fun idx => (capturedPair perIteration pairs idx).map body)

/-- The filters that `ElementFilters` appends for one table (lines 234-268). -/
def tableFilters (perIteration : Bool) (t : Table) : List ElementFilter :=
  match t.Filters with
  | none => []
  | some f =>
    (match f.ExcludeTags with
      | none => []
      | some pairs => loopFilters perIteration excludeFilter pairs) ++
    (match f.IncludeTags with
      | none => []
      | some pairs => loopFilters perIteration includeFilter pairs)

/-- The method `Mapping.ElementFilters` on the tables of the mapping: the result
map has an entry for every table for which a filter was appended. -/
def ElementFilters (perIteration : Bool) (tables : List (String × Table)) :
    List (String × List ElementFilter) :=
  tables.filterMap (fun nt =>
    if (tableFilters perIteration nt.2).isEmpty then none
    else some (nt.1, tableFilters perIteration nt.2))

/-- The filters of table `name` in the result of `ElementFilters`, each applied
to `tags`. -/
def runFilters (perIteration : Bool) (tables : List (String × Table)) (name : String)
    (tags : Tags) : List Bool :=
  match (ElementFilters perIteration tables).lookup name with
  | none => []
  | some fs => fs.map (fun f => f tags)

/-- The pair `(k, val)` matches the tags, in the words of C12: `val` is
`__nil__` and `k` is absent, or `val` is `__any__` and `k` is present, or `val`
is any other string and `k` is present with value `val`. -/
def specPairMatches (k val : String) (tags : Tags) : Bool :=
  (val == "__nil__" && (tagsGet? tags k).isNone) ||
  (val == "__any__" && (tagsGet? tags k).isSome) ||
  (val != "__nil__" && val != "__any__" && tagsGet? tags k == some val)

/-- A mapping with one table whose only filter is the include pair
`(k, __nil__)`. -/
def includeNilTables : List (String × Table) :=
  [("t", { Filters := some { ExcludeTags := none, IncludeTags := some [("k", "__nil__")] } })]

/-- A mapping with one table with the two exclude pairs `(a, x)` and `(b, y)`. -/
def twoExcludeTables : List (String × Table) :=
  [("t", { Filters := some { ExcludeTags := some [("a", "x"), ("b", "y")],
                             IncludeTags := none } })]

/-! ## Tag maps as Go values: references into a heap -/

/-- The maps of type `element.Tags` that exist at some moment; `maps[a]` is the
map at address `a`. -/
structure TagHeap where
  maps : List Tags
  deriving DecidableEq, Repr

/-- A Go value of type `element.Tags`: `none` is the nil map, `some a` refers to
the map at address `a`. Two values are the same map when they are equal. -/
abbrev TagsRef := Option Nat

/-- The entries of the map a value refers to (none for the nil map). -/
def TagHeap.read (h : TagHeap) (ref : TagsRef) : Tags :=
  match ref with
  | none => []
  | some a => (h.maps[a]?).getD []

/-- Go `make(element.Tags)`: an empty map at the first free address. -/
def TagHeap.make (h : TagHeap) : TagHeap × Nat :=
  ({ maps := h.maps ++ [[]] }, h.maps.length)

/-- Go `m[k] = v` for the map `m` at address `a`. -/
def TagHeap.assign (h : TagHeap) (a : Nat) (k v : String) : TagHeap :=
  match h.maps[a]? with
  | none => h
  | some t => { maps := h.maps.set a (tagsSet t k v) }

/-- The function `relationTags` on map values: `result := make(element.Tags)`,
then `result[k] = v` for every entry of `relTags`, then `return result`; the
heap after the call and the returned value. The code that read `wayTags` is
commented out. -/
def relationTagsIn (h : TagHeap) (relTags _wayTags : TagsRef) : TagHeap × TagsRef :=
  ((h.read relTags).foldl (fun hp kv => hp.assign h.make.2 kv.1 kv.2) h.make.1,
    some h.make.2)

/-- A heap with the tags of a relation at address 0 and the tags of a way at
address 1. -/
def exampleHeap : TagHeap :=
  { maps := [[("name", "A"), ("type", "multipolygon")], [("highway", "primary")]] }

/-- A heap with an empty map at address 0 and the tags of a way at address 1. -/
def emptyRelHeap : TagHeap := { maps := [[], [("highway", "primary")]] }

/-! ## Lemmas on `parentAt` -/

theorem parentAt_succ (g : GeosOracle) (m j : Nat) :
    parentAt g (m + 1) j =
      if m < j ∧ g.preparedContains m j = true then (m : Int) else parentAt g m j := rfl

theorem parentAt_spec (g : GeosOracle) (m j : Nat) :
    (parentAt g m j = -1 ∧ ∀ q, q < m → q < j → g.preparedContains q j = false) ∨
    (∃ p : Nat, parentAt g m j = (p : Int) ∧ p < m ∧ p < j ∧ g.preparedContains p j = true ∧
      ∀ q, p < q → q < m → q < j → g.preparedContains q j = false) := by
  induction m with
  | zero => left; exact ⟨rfl, fun q hq => absurd hq (Nat.not_lt_zero q)⟩
  | succ m ih =>
    unfold parentAt
    by_cases h : m < j ∧ g.preparedContains m j = true
    · rw [if_pos h]
      right
      refine ⟨m, rfl, Nat.lt_succ_self m, h.1, h.2, ?_⟩
      intro q h1 h2 _
      omega
    · rw [if_neg h]
      have hm : ∀ q, q = m → q < j → g.preparedContains q j = false := by
        intro q hq hqj
        subst hq
        by_contra hc
        exact h ⟨hqj, by simpa using hc⟩
      rcases ih with ⟨h1, h2⟩ | ⟨p, h1, h2, h3, h4, h5⟩
      · left
        refine ⟨h1, ?_⟩
        intro q hq hqj
        rcases Nat.lt_succ_iff_lt_or_eq.mp hq with hlt | heq
        · exact h2 q hlt hqj
        · exact hm q heq hqj
      · right
        refine ⟨p, h1, Nat.lt_succ_of_lt h2, h3, h4, ?_⟩
        intro q hpq hq hqj
        rcases Nat.lt_succ_iff_lt_or_eq.mp hq with hlt | heq
        · exact h5 q hpq hlt hqj
        · exact hm q heq hqj

theorem parentAt_range (g : GeosOracle) (m j : Nat) :
    parentAt g m j = -1 ∨ (0 ≤ parentAt g m j ∧ parentAt g m j < m ∧ parentAt g m j < j) := by
  rcases parentAt_spec g m j with ⟨h, _⟩ | ⟨p, h, h1, h2, _⟩
  · left; exact h
  · right; rw [h]; omega

theorem parentAt_ge (g : GeosOracle) (j d : Nat) :
    parentAt g (j + d) j = parentAt g j j := by
  induction d with
  | zero => rfl
  | succ d ih =>
    show parentAt g (j + d + 1) j = _
    rw [parentAt_succ, if_neg (by omega)]
    exact ih

theorem parentAt_of_le (g : GeosOracle) {m j : Nat} (h : j ≤ m) :
    parentAt g m j = parentAt g j j := by
  obtain ⟨d, rfl⟩ := Nat.exists_eq_add_of_le h
  exact parentAt_ge g j d

/-! ## Lemmas on `fdepth` -/

theorem depthFuel_fuel (g : GeosOracle) :
    ∀ f k f', k < f → k < f' → depthFuel g f k = depthFuel g f' k := by
  intro f
  induction f with
  | zero => intro k f' h; exact absurd h (Nat.not_lt_zero k)
  | succ f ih =>
    intro k f' hk hk'
    obtain ⟨f'', rfl⟩ : ∃ f'', f' = f'' + 1 := ⟨f' - 1, by omega⟩
    show (if parentAt g k k = -1 then 0 else depthFuel g f (parentAt g k k).toNat + 1) =
      (if parentAt g k k = -1 then 0 else depthFuel g f'' (parentAt g k k).toNat + 1)
    by_cases h : parentAt g k k = -1
    · rw [if_pos h, if_pos h]
    · rw [if_neg h, if_neg h]
      have hr := parentAt_range g k k
      rcases hr with hr | ⟨h0, h1, _⟩
      · exact absurd hr h
      · rw [ih (parentAt g k k).toNat f'' (by omega) (by omega)]

theorem fdepth_root (g : GeosOracle) (k : Nat) (h : parentAt g k k = -1) : fdepth g k = 0 := by
  show (if parentAt g k k = -1 then 0 else depthFuel g k (parentAt g k k).toNat + 1) = 0
  rw [if_pos h]

theorem fdepth_child (g : GeosOracle) (k : Nat) (h : parentAt g k k ≠ -1) :
    fdepth g k = fdepth g (parentAt g k k).toNat + 1 := by
  show (if parentAt g k k = -1 then 0 else depthFuel g k (parentAt g k k).toNat + 1) = _
  rw [if_neg h]
  have hr := parentAt_range g k k
  rcases hr with hr | ⟨h0, h1, _⟩
  · exact absurd hr h
  · unfold fdepth
    rw [depthFuel_fuel g k (parentAt g k k).toNat ((parentAt g k k).toNat + 1) (by omega) (by omega)]

/-! ## Lemmas on the set operations and the accessors -/

theorem mem_setInsert (s : List Nat) (k x : Nat) : x ∈ setInsert s k ↔ x ∈ s ∨ x = k := by
  unfold setInsert
  by_cases h : k ∈ s
  · rw [if_pos h]
    constructor
    · intro hx; exact Or.inl hx
    · rintro (hx | rfl)
      · exact hx
      · exact h
  · rw [if_neg h]
    simp

theorem nodup_setInsert (s : List Nat) (k : Nat) (h : s.Nodup) : (setInsert s k).Nodup := by
  unfold setInsert
  by_cases hk : k ∈ s
  · rw [if_pos hk]; exact h
  · rw [if_neg hk]
    rw [List.nodup_append]
    refine ⟨h, List.nodup_singleton k, ?_⟩
    intro a ha hb
    rw [List.mem_singleton] at hb
    subst hb
    exact hk ha

theorem mem_setDelete (s : List Nat) (k x : Nat) : x ∈ setDelete s k ↔ x ∈ s ∧ x ≠ k := by
  unfold setDelete
  simp

theorem nodup_setDelete (s : List Nat) (k : Nat) (h : s.Nodup) : (setDelete s k).Nodup :=
  List.Nodup.filter _ h

theorem getRing_of_lt (rings : List Ring) (k : Nat) (h : k < rings.length) :
    ∃ r, getRing rings (k : Int) = .ok r ∧ rings[k]? = some r ∧ r.containedBy = cbOf rings k ∧
      r.holes = holesOf rings k := by
  refine ⟨rings[k], ?_, ?_, ?_, ?_⟩
  · unfold getRing
    rw [if_neg (by omega)]
    simp [List.getElem?_eq_getElem h]
  · exact List.getElem?_eq_getElem h
  · unfold cbOf; rw [List.getElem?_eq_getElem h]
  · unfold holesOf; rw [List.getElem?_eq_getElem h]

theorem cbOf_set (rings : List Ring) (a : Nat) (r : Ring) (k : Nat) :
    cbOf (rings.set a r) k = if a = k ∧ a < rings.length then r.containedBy else cbOf rings k := by
  unfold cbOf
  rw [List.getElem?_set]
  by_cases h : a = k
  · subst h
    by_cases h2 : a < rings.length
    · simp [h2]
    · simp [h2]
      rw [List.getElem?_eq_none (by omega)]
  · simp [h]

theorem holesOf_set (rings : List Ring) (a : Nat) (r : Ring) (k : Nat) :
    holesOf (rings.set a r) k = if a = k ∧ a < rings.length then r.holes else holesOf rings k := by
  unfold holesOf
  rw [List.getElem?_set]
  by_cases h : a = k
  · subst h
    by_cases h2 : a < rings.length
    · simp [h2]
    · simp [h2]
      rw [List.getElem?_eq_none (by omega)]
  · simp [h]

/-! ## The three parts of the inner loop body preserve the invariant -/

theorem unparent_inv {g : GeosOracle} {n : Nat} {c : Nat → Int} {b : Nat} {st : ClassState}
    {j : Nat} (hI : InvCore g n c b st) (hA : CbAgree n c st) (hj : j < n) (hj0 : j ≠ 0)
    (hb : b ≤ j) (hc : c j = -1 ∨ (0 ≤ c j ∧ c j < n)) :
    ∃ st1, unparent st j = .ok st1 ∧ InvCore g n (Function.update c j (-1)) b st1 ∧
      CbAgree n c st1 := by
  have hlen := hI.len
  obtain ⟨rj, hgj, _, hcbj, _⟩ := getRing_of_lt st.rings j (by omega)
  rw [hA j hj] at hcbj
  unfold unparent
  rw [hgj]
  by_cases hneg : c j = -1
  · refine ⟨st, ?_, ?_, hA⟩
    · simp [hcbj, hneg]
    · have : Function.update c j (-1) = c := by
        rw [← hneg]; exact Function.update_eq_self j c
      rw [this]; exact hI
  · rcases hc with hc | ⟨hc0, hcn⟩
    · exact absurd hc hneg
    · obtain ⟨p, hp⟩ : ∃ p : Nat, c j = (p : Int) := ⟨(c j).toNat, by omega⟩
      have hpn : p < n := by omega
      obtain ⟨rp, hgp, _, hcbp, hhp⟩ := getRing_of_lt st.rings p (by omega)
      have hne : rj.containedBy ≠ -1 := by rw [hcbj]; exact hneg
      simp only [hne, ne_eq, not_false_eq_true, if_true]
      rw [hcbj, hp, hgp]
      refine ⟨_, rfl, ?_, ?_⟩
      · constructor
        · simp [hlen]
        · intro q k hq
          simp only [Int.toNat_ofNat, holesOf_set]
          by_cases hqp : p = q
          · subst hqp
            rw [if_pos ⟨rfl, by omega⟩]
            simp only [mem_setDelete, hhp, hI.holes p k hq, Function.update_apply]
            by_cases hkj : k = j
            · subst hkj; simp
            · simp [hkj]
          · rw [if_neg (fun h => hqp h.1), hI.holes q k hq, Function.update_apply]
            by_cases hkj : k = j
            · subst hkj
              simp only [if_true]
              constructor
              · rintro ⟨_, h, _⟩; rw [hp] at h; exact absurd (Int.ofNat.inj h) hqp
              · rintro ⟨_, h, _⟩; omega
            · simp [hkj]
        · intro k
          simp only [mem_setDelete, hI.shells k, Function.update_apply]
          by_cases hkj : k = j
          · subst hkj
            simp
            intro _; omega
          · simp [hkj]
        · exact nodup_setDelete _ _ hI.nodupS
        · intro q
          simp only [Int.toNat_ofNat, holesOf_set]
          by_cases hqp : p = q ∧ p < st.rings.length
          · rw [if_pos hqp]; rw [hhp]; exact nodup_setDelete _ _ (hI.nodupH p)
          · rw [if_neg hqp]; exact hI.nodupH q
      · intro k hk
        simp only [Int.toNat_ofNat, cbOf_set]
        by_cases hkp : p = k ∧ p < st.rings.length
        · rw [if_pos hkp]
          obtain ⟨rfl, _⟩ := hkp
          show rp.containedBy = _
          rw [hcbp]; exact hA p hk
        · rw [if_neg hkp]; exact hA k hk

theorem setParent_inv {g : GeosOracle} {n : Nat} {c c' : Nat → Int} {b : Nat} {st : ClassState}
    {i j : Nat} (hI : InvCore g n c' b st) (hA : CbAgree n c st) (hj : j < n) :
    ∃ st1, setParent st i j = .ok st1 ∧ InvCore g n c' b st1 ∧
      CbAgree n (Function.update c j (i : Int)) st1 := by
  have hlen := hI.len
  obtain ⟨rj, hgj, _, hcbj, hhj⟩ := getRing_of_lt st.rings j (by omega)
  unfold setParent
  rw [hgj]
  refine ⟨_, rfl, ?_, ?_⟩
  · constructor
    · simp [hlen]
    · intro q k hq
      simp only [holesOf_set]
      by_cases hqp : j = q ∧ j < st.rings.length
      · rw [if_pos hqp]
        obtain ⟨rfl, _⟩ := hqp
        show k ∈ rj.holes ↔ _
        rw [hhj]; exact hI.holes j k hq
      · rw [if_neg hqp]; exact hI.holes q k hq
    · exact hI.shells
    · exact hI.nodupS
    · intro q
      simp only [holesOf_set]
      by_cases hqp : j = q ∧ j < st.rings.length
      · rw [if_pos hqp]
        obtain ⟨rfl, _⟩ := hqp
        show rj.holes.Nodup
        rw [hhj]; exact hI.nodupH j
      · rw [if_neg hqp]; exact hI.nodupH q
  · intro k hk
    simp only [cbOf_set, Function.update_apply]
    by_cases hkj : k = j
    · subst hkj
      rw [if_pos ⟨rfl, by omega⟩, if_pos rfl]
    · rw [if_neg (fun h => hkj h.1.symm), if_neg hkj]
      exact hA k hk

theorem containedCounter_final (g : GeosOracle) (rings : List Ring) :
    ∀ fuel idx counter, idx < rings.length → idx < fuel →
      (∀ k, k ≤ idx → cbOf rings k = parentAt g k k) →
      containedCounter rings fuel (idx : Int) counter = .ok (counter + fdepth g idx) := by
  intro fuel
  induction fuel with
  | zero => intro idx _ _ h; exact absurd h (Nat.not_lt_zero idx)
  | succ fuel ih =>
    intro idx counter hidx hfuel hcb
    obtain ⟨r, hg, _, hr, _⟩ := getRing_of_lt rings idx hidx
    rw [hcb idx (Nat.le_refl idx)] at hr
    unfold containedCounter
    rw [hg]
    by_cases h : parentAt g idx idx = -1
    · simp [hr, h, fdepth_root g idx h]
    · have hrange := parentAt_range g idx idx
      rcases hrange with hrange | ⟨h0, h1, _⟩
      · exact absurd hrange h
      · obtain ⟨p, hp⟩ : ∃ p : Nat, parentAt g idx idx = (p : Int) :=
          ⟨(parentAt g idx idx).toNat, by omega⟩
        have hne : r.containedBy ≠ -1 := by rw [hr]; exact h
        simp only [hne, if_false]
        rw [hr, hp, ih p (counter + 1) (by omega) (by omega) (fun k hk => hcb k (by omega))]
        rw [fdepth_child g idx h, hp]
        simp only [Int.toNat_ofNat]
        congr 1
        omega

theorem ringIsHole_child {g : GeosOracle} {n : Nat} {c : Nat → Int} {st : ClassState}
    {i j : Nat} (hlen : st.rings.length = n) (hA : CbAgree n c st) (hij : i < j) (hj : j < n)
    (hcj : c j = (i : Int)) (hfin : ∀ k, k ≤ i → c k = parentAt g k k) :
    ringIsHole st.rings j = .ok (decide (fdepth g i % 2 = 0)) := by
  obtain ⟨r, hg, _, hr, _⟩ := getRing_of_lt st.rings j (by omega)
  rw [hA j hj, hcj] at hr
  unfold ringIsHole
  have hne : r.containedBy ≠ -1 := by rw [hr]; omega
  have hstep : containedCounter st.rings (st.rings.length + 1) (j : Int) 0 =
      containedCounter st.rings st.rings.length (i : Int) 1 := by
    conv_lhs => unfold containedCounter
    rw [hg]
    show (if r.containedBy = -1 then Except.ok 0
      else containedCounter st.rings st.rings.length r.containedBy (0 + 1)) = _
    rw [if_neg hne, hr]
  rw [hstep, containedCounter_final g st.rings st.rings.length i 1 (by omega) (by omega)
    (fun k hk => by rw [hA k (by omega)]; exact hfin k hk)]
  simp only
  congr 1
  rcases Nat.mod_two_eq_zero_or_one (fdepth g i) with h | h
  · have : (1 + fdepth g i) % 2 = 1 := by omega
    simp [h, this]
  · have : (1 + fdepth g i) % 2 = 0 := by omega
    simp [h, this]

theorem addHoleOrShell_inv {g : GeosOracle} {n : Nat} {c : Nat → Int} {b : Nat}
    {st : ClassState} {i j : Nat}
    (hI : InvCore g n (Function.update c j (-1)) b st)
    (hA : CbAgree n (Function.update c j (i : Int)) st)
    (hi : i < n) (hj : j < n) (hj0 : j ≠ 0) (hb : b ≤ j)
    (hhole : ringIsHole st.rings j = .ok (decide (fdepth g i % 2 = 0))) :
    ∃ st1, addHoleOrShell st i j = .ok st1 ∧ InvCore g n (Function.update c j (i : Int)) b st1 ∧
      CbAgree n (Function.update c j (i : Int)) st1 := by
  have hlen := hI.len
  unfold addHoleOrShell
  rw [hhole]
  by_cases hev : fdepth g i % 2 = 0
  · obtain ⟨ri, hgi, _, hcbi, hhi⟩ := getRing_of_lt st.rings i (by omega)
    simp only [hev, decide_True]
    rw [hgi]
    refine ⟨_, rfl, ?_, ?_⟩
    · constructor
      · simp [hlen]
      · intro q k hq
        simp only [holesOf_set]
        by_cases hqi : i = q
        · subst hqi
          rw [if_pos ⟨rfl, by omega⟩]
          simp only [mem_setInsert, hhi, hI.holes i k hq, Function.update_apply]
          by_cases hkj : k = j
          · subst hkj; simp [hj, hev]
          · simp [hkj]
        · rw [if_neg (fun h => hqi h.1), hI.holes q k hq]
          simp only [Function.update_apply]
          by_cases hkj : k = j
          · subst hkj
            simp only [if_true]
            constructor
            · rintro ⟨_, h, _⟩; omega
            · rintro ⟨_, h, _⟩; exact absurd (Int.ofNat.inj h) hqi
          · simp [hkj]
      · intro k
        rw [hI.shells k]
        simp only [Function.update_apply]
        by_cases hkj : k = j
        · subst hkj
          simp only [if_true, Int.toNat_ofNat]
          constructor
          · rintro ⟨_, h | ⟨_, h⟩ | ⟨h, _⟩⟩
            · exact absurd h hj0
            · omega
            · exact absurd rfl h
          · rintro ⟨_, h | ⟨h, _⟩ | ⟨_, h⟩⟩
            · exact absurd h hj0
            · omega
            · omega
        · simp [hkj]
      · exact hI.nodupS
      · intro q
        simp only [holesOf_set]
        by_cases hqp : i = q ∧ i < st.rings.length
        · rw [if_pos hqp]; rw [hhi]; exact nodup_setInsert _ _ (hI.nodupH i)
        · rw [if_neg hqp]; exact hI.nodupH q
    · intro k hk
      simp only [cbOf_set]
      by_cases hki : i = k ∧ i < st.rings.length
      · rw [if_pos hki]
        obtain ⟨rfl, _⟩ := hki
        show ri.containedBy = _
        rw [hcbi]; exact hA i hk
      · rw [if_neg hki]; exact hA k hk
  · have hodd : fdepth g i % 2 = 1 := by omega
    simp only [hev, decide_False]
    refine ⟨_, rfl, ?_, hA⟩
    constructor
    · exact hlen
    · intro q k hq
      show k ∈ holesOf st.rings q ↔ _
      rw [hI.holes q k hq]
      simp only [Function.update_apply]
      by_cases hkj : k = j
      · subst hkj
        simp only [if_true]
        constructor
        · rintro ⟨_, h, _⟩; omega
        · rintro ⟨_, h, h2⟩
          have := Int.ofNat.inj h
          subst this
          omega
      · simp [hkj]
    · intro k
      show k ∈ setInsert st.shells j ↔ _
      rw [mem_setInsert, hI.shells k]
      simp only [Function.update_apply]
      by_cases hkj : k = j
      · subst hkj
        simp only [if_true, Int.toNat_ofNat, or_true, true_iff]
        refine ⟨hj, Or.inr (Or.inr ⟨by omega, hodd⟩)⟩
      · simp [hkj]
    · exact nodup_setInsert _ _ hI.nodupS
    · exact hI.nodupH

/-! ## The loops preserve the invariant -/

theorem InvCore_congr {g : GeosOracle} {n : Nat} {c c' : Nat → Int} {b : Nat} {st : ClassState}
    (h : ∀ k, k < n → c k = c' k) (hI : InvCore g n c b st) : InvCore g n c' b st := by
  constructor
  · exact hI.len
  · intro p k hp
    rw [hI.holes p k hp]
    constructor
    · rintro ⟨h1, h2, h3⟩; exact ⟨h1, by rw [← h k h1]; exact h2, h3⟩
    · rintro ⟨h1, h2, h3⟩; exact ⟨h1, by rw [h k h1]; exact h2, h3⟩
  · intro k
    rw [hI.shells k]
    constructor
    · rintro ⟨h1, h2⟩; refine ⟨h1, ?_⟩; rw [← h k h1]; exact h2
    · rintro ⟨h1, h2⟩; refine ⟨h1, ?_⟩; rw [h k h1]; exact h2
  · exact hI.nodupS
  · exact hI.nodupH

theorem CbAgree_congr {n : Nat} {c c' : Nat → Int} {st : ClassState}
    (h : ∀ k, k < n → c k = c' k) (hA : CbAgree n c st) : CbAgree n c' st := by
  intro k hk
  rw [hA k hk, h k hk]

theorem cAt_succ (g : GeosOracle) (i j : Nat) (hij : i < j) :
    cAt g i (j + 1) = Function.update (cAt g i j) j
      (if g.preparedContains i j = true then (i : Int) else cAt g i j j) := by
  funext k
  simp only [Function.update_apply, cAt]
  by_cases hkj : k = j
  · subst hkj
    rw [if_pos (Nat.lt_succ_self k), if_pos rfl, if_neg (Nat.lt_irrefl k), parentAt_succ]
    by_cases hc : g.preparedContains i k = true
    · rw [if_pos ⟨hij, hc⟩, if_pos hc]
    · rw [if_neg (fun h => hc h.2), if_neg hc]
  · rw [if_neg hkj]
    by_cases hlt : k < j
    · rw [if_pos hlt, if_pos (by omega)]
    · rw [if_neg hlt, if_neg (by omega)]

theorem classifyPair_inv {g : GeosOracle} {n : Nat} {st : ClassState} {i j : Nat}
    (hI : InvCore g n (cAt g i j) i st) (hA : CbAgree n (cAt g i j) st)
    (hij : i < j) (hj : j < n) :
    ∃ st1, classifyPair g i j st = .ok st1 ∧ InvCore g n (cAt g i (j + 1)) i st1 ∧
      CbAgree n (cAt g i (j + 1)) st1 := by
  rw [cAt_succ g i j hij]
  unfold classifyPair
  by_cases hc : g.preparedContains i j = true
  · rw [if_pos hc, if_pos hc]
    have hcj : cAt g i j j = parentAt g i j := by
      unfold cAt; rw [if_neg (Nat.lt_irrefl j)]
    have hrange : cAt g i j j = -1 ∨ (0 ≤ cAt g i j j ∧ cAt g i j j < n) := by
      rw [hcj]
      rcases parentAt_range g i j with h | ⟨h0, h1, _⟩
      · exact Or.inl h
      · exact Or.inr ⟨h0, by omega⟩
    obtain ⟨st1, h1, hI1, hA1⟩ := unparent_inv hI hA hj (by omega) (Nat.le_of_lt hij) hrange
    obtain ⟨st2, h2, hI2, hA2⟩ := setParent_inv (i := i) hI1 hA1 hj
    have hhole : ringIsHole st2.rings j = .ok (decide (fdepth g i % 2 = 0)) := by
      refine ringIsHole_child hI2.len hA2 hij hj (by simp) ?_
      intro k hk
      rw [Function.update_apply, if_neg (by omega)]
      unfold cAt
      rw [if_pos (by omega)]
      exact parentAt_of_le g (by omega)
    obtain ⟨st3, h3, hI3, hA3⟩ := addHoleOrShell_inv hI2 hA2 (by omega) hj (by omega)
      (Nat.le_of_lt hij) hhole
    refine ⟨st3, ?_, hI3, hA3⟩
    rw [h1]
    simp only
    rw [h2]
    exact h3
  · rw [if_neg hc, if_neg hc, Function.update_eq_self]
    exact ⟨st, rfl, hI, hA⟩

theorem innerLoop_inv {g : GeosOracle} {n i : Nat} :
    ∀ (d j : Nat) (st : ClassState), j + d = n → i < j →
      InvCore g n (cAt g i j) i st → CbAgree n (cAt g i j) st →
      ∃ st1, innerLoop g i (List.range' j d) st = .ok st1 ∧ InvCore g n (cAt g i n) i st1 ∧
        CbAgree n (cAt g i n) st1 := by
  intro d
  induction d with
  | zero =>
    intro j st hjd _ hI hA
    have : j = n := by omega
    subst this
    exact ⟨st, rfl, hI, hA⟩
  | succ d ih =>
    intro j st hjd hij hI hA
    obtain ⟨st1, h1, hI1, hA1⟩ := classifyPair_inv hI hA hij (by omega)
    obtain ⟨st2, h2, hI2, hA2⟩ := ih (j + 1) st1 (by omega) (by omega) hI1 hA1
    refine ⟨st2, ?_, hI2, hA2⟩
    show innerLoop g i (j :: List.range' (j + 1) d) st = _
    unfold innerLoop
    rw [h1]
    exact h2

theorem outerStep_inv {g : GeosOracle} {n i : Nat} {st : ClassState} (hi : i < n)
    (hprep : g.prepare i = true)
    (hI : InvCore g n (parentAt g i) i st) (hA : CbAgree n (parentAt g i) st) :
    ∃ st1, outerStep g n i st = .ok st1 ∧ InvCore g n (parentAt g (i + 1)) (i + 1) st1 ∧
      CbAgree n (parentAt g (i + 1)) st1 := by
  have hstart : ∀ k, k < n → parentAt g i k = cAt g i (i + 1) k := by
    intro k _
    unfold cAt
    by_cases hk : k < i + 1
    · rw [if_pos hk, parentAt_of_le g (show k ≤ i by omega),
        parentAt_of_le g (show k ≤ i + 1 by omega)]
    · rw [if_neg hk]
  have hend : ∀ k, k < n → cAt g i n k = parentAt g (i + 1) k := by
    intro k hk
    unfold cAt
    rw [if_pos hk]
  obtain ⟨st1, h1, hI1, hA1⟩ := innerLoop_inv (n - (i + 1)) (i + 1) st (by omega) (by omega)
    (InvCore_congr hstart hI) (CbAgree_congr hstart hA)
  have hI2 := InvCore_congr hend hI1
  have hA2 := CbAgree_congr hend hA1
  obtain ⟨ri, hgi, _, hcbi, _⟩ := getRing_of_lt st1.rings i (by rw [hI2.len]; exact hi)
  rw [hA2 i hi] at hcbi
  unfold outerStep
  rw [if_pos hprep, h1]
  simp only
  rw [hgi]
  simp only
  by_cases hroot : parentAt g (i + 1) i = -1
  · rw [if_pos (by rw [hcbi]; exact hroot)]
    refine ⟨_, rfl, ?_, hA2⟩
    constructor
    · exact hI2.len
    · exact hI2.holes
    · intro k
      show k ∈ setInsert st1.shells i ↔ _
      rw [mem_setInsert, hI2.shells k]
      by_cases hki : k = i
      · subst hki
        simp only [or_true, true_iff]
        exact ⟨hi, Or.inr (Or.inl ⟨hroot, Nat.lt_succ_self k⟩)⟩
      · have : k < i + 1 ↔ k < i := by omega
        simp only [hki, or_false, this]
    · exact nodup_setInsert _ _ hI2.nodupS
    · exact hI2.nodupH
  · rw [if_neg (by rw [hcbi]; exact hroot)]
    refine ⟨_, rfl, ?_, hA2⟩
    constructor
    · exact hI2.len
    · exact hI2.holes
    · intro k
      rw [hI2.shells k]
      by_cases hki : k = i
      · subst hki
        simp only [hroot, false_and]
      · have : k < i + 1 ↔ k < i := by omega
        simp only [this]
    · exact hI2.nodupS
    · exact hI2.nodupH

theorem outerLoop_inv {g : GeosOracle} {n : Nat} (hprep : ∀ i, i < n → g.prepare i = true) :
    ∀ (d i : Nat) (st : ClassState), i + d = n →
      InvCore g n (parentAt g i) i st → CbAgree n (parentAt g i) st →
      ∃ st1, outerLoop g n (List.range' i d) st = .ok st1 ∧ InvCore g n (parentAt g n) n st1 ∧
        CbAgree n (parentAt g n) st1 := by
  intro d
  induction d with
  | zero =>
    intro i st hid hI hA
    have : i = n := by omega
    subst this
    exact ⟨st, rfl, hI, hA⟩
  | succ d ih =>
    intro i st hid hI hA
    obtain ⟨st1, h1, hI1, hA1⟩ := outerStep_inv (by omega) (hprep i (by omega)) hI hA
    obtain ⟨st2, h2, hI2, hA2⟩ := ih (i + 1) st1 (by omega) hI1 hA1
    refine ⟨st2, ?_, hI2, hA2⟩
    show outerLoop g n (i :: List.range' (i + 1) d) st = _
    unfold outerLoop
    rw [h1]
    exact h2

/-- The classification loop returns on every non-empty list of fresh rings whose
geometries can be prepared, and it ends in a state where every `containedBy` is
the final parent and the sets are as the invariant says. -/
theorem classify_final (g : GeosOracle) (rings : List Ring) (hne : rings ≠ [])
    (hfresh : ∀ r, r ∈ rings → r.isFresh)
    (hprep : ∀ i, i < rings.length → g.prepare i = true) :
    ∃ st, classify g rings = .ok st ∧
      InvCore g rings.length (fun k => parentAt g k k) rings.length st ∧
      CbAgree rings.length (fun k => parentAt g k k) st := by
  have hfin : ∀ k, k < rings.length → parentAt g rings.length k = parentAt g k k :=
    fun k hk => parentAt_of_le g (Nat.le_of_lt hk)
  have hpos : 0 < rings.length := List.length_pos.mpr hne
  have hI0 : InvCore g rings.length (parentAt g 0) 0 { rings := rings, shells := [0] } := by
    constructor
    · rfl
    · intro p k hp
      have : holesOf rings p = [] := by
        unfold holesOf
        rw [List.getElem?_eq_getElem hp]
        exact (hfresh _ (List.getElem_mem hp)).2
      rw [this]
      simp only [List.not_mem_nil, false_iff, not_and]
      intro _ h
      have : parentAt g 0 k = -1 := rfl
      omega
    · intro k
      have : parentAt g 0 k = -1 := rfl
      simp only [List.mem_singleton, this]
      constructor
      · intro h; subst h; exact ⟨hpos, Or.inl rfl⟩
      · rintro ⟨_, h | ⟨_, h⟩ | ⟨h, _⟩⟩
        · exact h
        · exact absurd h (Nat.not_lt_zero k)
        · exact absurd rfl h
    · exact List.nodup_singleton 0
    · intro p
      unfold holesOf
      cases hp : rings[p]? with
      | none => exact List.nodup_nil
      | some r =>
        have hmem : r ∈ rings := List.getElem?_mem hp
        show r.holes.Nodup
        rw [(hfresh r hmem).2]
        exact List.nodup_nil
  have hA0 : CbAgree rings.length (parentAt g 0) { rings := rings, shells := [0] } := by
    intro k hk
    show cbOf rings k = -1
    unfold cbOf
    rw [List.getElem?_eq_getElem hk]
    exact (hfresh _ (List.getElem_mem hk)).1
  obtain ⟨st, h, hI, hA⟩ := outerLoop_inv hprep rings.length 0 _ (by omega) hI0 hA0
  refine ⟨st, ?_, InvCore_congr hfin hI, CbAgree_congr hfin hA⟩
  cases rings with
  | nil => exact absurd rfl hne
  | cons r rs =>
    unfold classify
    rw [List.range_eq_range']
    exact h

/-! ## C1, C2, C3: the result of the classification loop -/

theorem holesOf_of_ge (rings : List Ring) (p : Nat) (h : rings.length ≤ p) :
    holesOf rings p = [] := by
  unfold holesOf
  rw [List.getElem?_eq_none h]

theorem final_not_in_holes {g : GeosOracle} {n : Nat} {st : ClassState}
    (hI : InvCore g n (fun k => parentAt g k k) n st) {r q : Nat}
    (h : r ∈ holesOf st.rings q) :
    r < n ∧ q < n ∧ parentAt g r r = (q : Int) ∧ fdepth g q % 2 = 0 := by
  by_cases hq : q < n
  · obtain ⟨h1, h2, h3⟩ := (hI.holes q r hq).mp h
    exact ⟨h1, hq, h2, h3⟩
  · rw [holesOf_of_ge st.rings q (by rw [hI.len]; omega)] at h
    exact absurd h (List.not_mem_nil r)

/-- C1: after the classification loop over a non-empty list of fresh rings, every
ring is either in the shell set and in no `holes` set, or it is not in the shell
set and in the `holes` set of exactly one ring, which is another ring. -/
theorem C1_shell_or_hole_of_one_parent (g : GeosOracle) (rings : List Ring) (hne : rings ≠ [])
    (hfresh : ∀ r, r ∈ rings → r.isFresh)
    (hprep : ∀ i, i < rings.length → g.prepare i = true) :
    ∃ st, classify g rings = .ok st ∧ ∀ r, r < rings.length →
      ((r ∈ st.shells ∧ ∀ p, r ∉ holesOf st.rings p) ∨
       (r ∉ st.shells ∧ ∃ p, p < rings.length ∧ p ≠ r ∧ r ∈ holesOf st.rings p ∧
          ∀ q, r ∈ holesOf st.rings q → q = p)) := by
  obtain ⟨st, hst, hI, _⟩ := classify_final g rings hne hfresh hprep
  refine ⟨st, hst, ?_⟩
  intro r hr
  by_cases hroot : parentAt g r r = -1
  · left
    refine ⟨(hI.shells r).mpr ⟨hr, Or.inr (Or.inl ⟨hroot, hr⟩)⟩, ?_⟩
    intro p hp
    have := (final_not_in_holes hI hp).2.2.1
    omega
  · rcases parentAt_range g r r with h | ⟨h0, h1, _⟩
    · exact absurd h hroot
    · obtain ⟨p, hp⟩ : ∃ p : Nat, parentAt g r r = (p : Int) :=
        ⟨(parentAt g r r).toNat, by omega⟩
      have hpr : p < r := by omega
      by_cases hev : fdepth g p % 2 = 0
      · right
        refine ⟨?_, p, by omega, by omega, (hI.holes p r (by omega)).mpr ⟨hr, hp, hev⟩, ?_⟩
        · intro hmem
          rcases (hI.shells r).mp hmem with ⟨_, h | ⟨h, _⟩ | ⟨_, h⟩⟩
          · omega
          · exact absurd h hroot
          · simp only [hp, Int.toNat_ofNat] at h
            omega
        · intro q hq
          have := (final_not_in_holes hI hq).2.2.1
          omega
      · left
        refine ⟨(hI.shells r).mpr ⟨hr, Or.inr (Or.inr ⟨hroot, ?_⟩)⟩, ?_⟩
        · simp only [hp, Int.toNat_ofNat]
          omega
        · intro q hq
          obtain ⟨_, _, h2, h3⟩ := final_not_in_holes hI hq
          have : q = p := by omega
          subst this
          exact hev h3

theorem C1_witness :
    ∃ st, classify nestedGeos [freshRing, freshRing, freshRing] = .ok st ∧
      ∀ r, r < [freshRing, freshRing, freshRing].length →
      ((r ∈ st.shells ∧ ∀ p, r ∉ holesOf st.rings p) ∨
       (r ∉ st.shells ∧ ∃ p, p < [freshRing, freshRing, freshRing].length ∧ p ≠ r ∧
          r ∈ holesOf st.rings p ∧ ∀ q, r ∈ holesOf st.rings q → q = p)) :=
  C1_shell_or_hole_of_one_parent nestedGeos [freshRing, freshRing, freshRing] (by decide)
    (by decide) (fun _ _ => rfl)

/-- C3: after the classification loop, `rings[j].containedBy` is the greatest
`i < j` with `preparedContains i j`, and it is `-1` exactly when there is no
such `i`. -/
theorem C3_containedBy_is_last_container (g : GeosOracle) (rings : List Ring)
    (hne : rings ≠ []) (hfresh : ∀ r, r ∈ rings → r.isFresh)
    (hprep : ∀ i, i < rings.length → g.prepare i = true) :
    ∃ st, classify g rings = .ok st ∧ st.rings.length = rings.length ∧
      ∀ j, j < rings.length → ∃ rj, st.rings[j]? = some rj ∧
        (rj.containedBy = -1 ↔ ∀ i, i < j → g.preparedContains i j = false) ∧
        (rj.containedBy = -1 ∨
          ∃ i : Nat, rj.containedBy = (i : Int) ∧ i < j ∧ g.preparedContains i j = true ∧
            ∀ i2, i < i2 → i2 < j → g.preparedContains i2 j = false) := by
  obtain ⟨st, hst, hI, hA⟩ := classify_final g rings hne hfresh hprep
  refine ⟨st, hst, hI.len, ?_⟩
  intro j hj
  obtain ⟨rj, _, hget, hcb, _⟩ := getRing_of_lt st.rings j (by rw [hI.len]; exact hj)
  rw [hA j hj] at hcb
  replace hcb : rj.containedBy = parentAt g j j := hcb
  refine ⟨rj, hget, ?_, ?_⟩
  · rw [hcb]
    rcases parentAt_spec g j j with ⟨h1, h2⟩ | ⟨p, h1, h2, _, h4, _⟩
    · exact ⟨fun _ i hi => h2 i hi hi, fun _ => h1⟩
    · constructor
      · intro h; rw [h1] at h; omega
      · intro h
        rw [h p h2] at h4
        exact absurd h4 (by decide)
  · rw [hcb]
    rcases parentAt_spec g j j with ⟨h1, _⟩ | ⟨p, h1, h2, _, h4, h5⟩
    · exact Or.inl h1
    · exact Or.inr ⟨p, h1, h2, h4, fun i2 h6 h7 => h5 i2 h6 h7 h7⟩

theorem C3_witness :
    ∃ st, classify nestedGeos [freshRing, freshRing, freshRing] = .ok st ∧
      st.rings.length = [freshRing, freshRing, freshRing].length ∧
      ∀ j, j < [freshRing, freshRing, freshRing].length → ∃ rj, st.rings[j]? = some rj ∧
        (rj.containedBy = -1 ↔ ∀ i, i < j → nestedGeos.preparedContains i j = false) ∧
        (rj.containedBy = -1 ∨
          ∃ i : Nat, rj.containedBy = (i : Int) ∧ i < j ∧
            nestedGeos.preparedContains i j = true ∧
            ∀ i2, i < i2 → i2 < j → nestedGeos.preparedContains i2 j = false) :=
  C3_containedBy_is_last_container nestedGeos [freshRing, freshRing, freshRing] (by decide)
    (by decide) (fun _ _ => rfl)

/-- C2: after the classification loop, a ring whose `containedBy` chain has an odd
number of hops is in the `holes` set of `rings[containedBy]` and not in the
shell set, and a ring with an even number of hops is in the shell set and in no
`holes` set; `ringIsHole` returns the parity. Scenario S5: three nested rings end
with `containedBy = [-1, 0, 1]`, shells `{0, 2}`, `holes(0) = {1}`, and no holes
in rings 1 and 2. -/
theorem C2_parity_decides_hole_or_shell :
    (∀ (g : GeosOracle) (rings : List Ring), rings ≠ [] → (∀ r, r ∈ rings → r.isFresh) →
      (∀ i, i < rings.length → g.prepare i = true) →
      ∃ st, classify g rings = .ok st ∧ ∀ r, r < rings.length →
        ∃ hops, containedCounter st.rings (st.rings.length + 1) (r : Int) 0 = .ok hops ∧
          ringIsHole st.rings r = .ok (hops % 2 == 1) ∧
          (hops % 2 = 1 → r ∉ st.shells ∧
            ∃ p : Nat, cbOf st.rings r = (p : Int) ∧ r ∈ holesOf st.rings p) ∧
          (hops % 2 = 0 → r ∈ st.shells ∧ ∀ p, r ∉ holesOf st.rings p)) ∧
    (classify nestedGeos [freshRing, freshRing, freshRing]).map
        (fun st => (st.rings.map (fun r => r.containedBy), st.shells,
          st.rings.map (fun r => r.holes))) =
      .ok ([-1, 0, 1], [0, 2], [[1], [], []]) := by
  refine ⟨?_, by decide⟩
  intro g rings hne hfresh hprep
  obtain ⟨st, hst, hI, hA⟩ := classify_final g rings hne hfresh hprep
  refine ⟨st, hst, ?_⟩
  intro r hr
  have hcc : containedCounter st.rings (st.rings.length + 1) (r : Int) 0 =
      .ok (0 + fdepth g r) :=
    containedCounter_final g st.rings (st.rings.length + 1) r 0 (by rw [hI.len]; exact hr)
      (by rw [hI.len]; omega) (fun k hk => hA k (by omega))
  rw [Nat.zero_add] at hcc
  refine ⟨fdepth g r, hcc, ?_, ?_, ?_⟩
  · unfold ringIsHole
    rw [hcc]
  · intro hodd
    by_cases hroot : parentAt g r r = -1
    · rw [fdepth_root g r hroot] at hodd
      omega
    · rcases parentAt_range g r r with h | ⟨h0, h1, _⟩
      · exact absurd h hroot
      · obtain ⟨p, hp⟩ : ∃ p : Nat, parentAt g r r = (p : Int) :=
          ⟨(parentAt g r r).toNat, by omega⟩
        have hd := fdepth_child g r hroot
        rw [hp, Int.toNat_ofNat] at hd
        have hev : fdepth g p % 2 = 0 := by omega
        refine ⟨?_, p, ?_, (hI.holes p r (by omega)).mpr ⟨hr, hp, hev⟩⟩
        · intro hmem
          rcases (hI.shells r).mp hmem with ⟨_, h | ⟨h, _⟩ | ⟨_, h⟩⟩
          · omega
          · exact absurd h hroot
          · simp only [hp, Int.toNat_ofNat] at h
            omega
        · rw [hA r hr]; exact hp
  · intro hev
    by_cases hroot : parentAt g r r = -1
    · refine ⟨(hI.shells r).mpr ⟨hr, Or.inr (Or.inl ⟨hroot, hr⟩)⟩, ?_⟩
      intro p hp
      have := (final_not_in_holes hI hp).2.2.1
      omega
    · rcases parentAt_range g r r with h | ⟨h0, h1, _⟩
      · exact absurd h hroot
      · obtain ⟨p, hp⟩ : ∃ p : Nat, parentAt g r r = (p : Int) :=
          ⟨(parentAt g r r).toNat, by omega⟩
        have hd := fdepth_child g r hroot
        rw [hp, Int.toNat_ofNat] at hd
        have hodd : fdepth g p % 2 = 1 := by omega
        refine ⟨(hI.shells r).mpr ⟨hr, Or.inr (Or.inr ⟨hroot, ?_⟩)⟩, ?_⟩
        · simp only [hp, Int.toNat_ofNat]
          exact hodd
        · intro q hq
          obtain ⟨_, _, h2, h3⟩ := final_not_in_holes hI hq
          have : q = p := by omega
          subst this
          omega

theorem C2_witness :
    ∃ st, classify nestedGeos [freshRing, freshRing, freshRing] = .ok st ∧
      ∀ r, r < [freshRing, freshRing, freshRing].length →
        ∃ hops, containedCounter st.rings (st.rings.length + 1) (r : Int) 0 = .ok hops ∧
          ringIsHole st.rings r = .ok (hops % 2 == 1) ∧
          (hops % 2 = 1 → r ∉ st.shells ∧
            ∃ p : Nat, cbOf st.rings r = (p : Int) ∧ r ∈ holesOf st.rings p) ∧
          (hops % 2 = 0 → r ∈ st.shells ∧ ∀ p, r ∉ holesOf st.rings p) :=
  C2_parity_decides_hole_or_shell.1 nestedGeos [freshRing, freshRing, freshRing] (by decide)
    (by decide) (fun _ _ => rfl)

/-! ## C5, C6: the ring geometries that `BuildRelGeometry` destroys -/

theorem holesLoop_ok (g : GeosOracle) :
    ∀ (hs ints d d1 ints1 : List Nat), holesLoop g hs ints d = (d1, .ok ints1) →
      d1 = d ++ hs := by
  intro hs
  induction hs with
  | nil =>
    intro ints d d1 ints1 h
    unfold holesLoop at h
    simp only [Prod.mk.injEq] at h
    rw [← h.1, List.append_nil]
  | cons x xs ih =>
    intro ints d d1 ints1 h
    unfold holesLoop at h
    by_cases hx : g.exteriorRing x = true
    · rw [if_pos hx] at h
      rw [ih _ _ _ _ h, List.append_assoc]
      rfl
    · rw [if_neg hx] at h
      simp only [Prod.mk.injEq] at h
      exact absurd h.2 (by simp)

theorem shellsLoop_ok (g : GeosOracle) (rings : List Ring) :
    ∀ (ss : List Nat) (ps : List (Nat × List Nat)) (d d1 : List Nat)
      (ps1 : List (Nat × List Nat)), shellsLoop g rings ss ps d = (d1, .ok ps1) →
      d1 = d ++ ss.flatMap (fun s => g.rangeOrder (holesOf rings s) ++ [s]) := by
  intro ss
  induction ss with
  | nil =>
    intro ps d d1 ps1 h
    unfold shellsLoop at h
    simp only [Prod.mk.injEq] at h
    rw [← h.1]
    simp
  | cons s rest ih =>
    intro ps d d1 ps1 h
    unfold shellsLoop at h
    rcases hh : holesLoop g (g.rangeOrder (holesOf rings s)) [] d with ⟨d2, res⟩
    rw [hh] at h
    cases res with
    | error e =>
      simp only [Prod.mk.injEq] at h
      exact absurd h.2 (by simp)
    | ok ints =>
      simp only at h
      have hd2 := holesLoop_ok g _ _ _ _ _ hh
      by_cases hx : g.exteriorRing s = true
      · rw [if_pos hx] at h
        by_cases hp : g.polygon s ints = true
        · rw [if_pos hp] at h
          rw [ih _ _ _ _ h, hd2, List.flatMap_cons]
          simp only [List.append_assoc]
        · rw [if_neg hp] at h
          simp only [Prod.mk.injEq] at h
          exact absurd h.2 (by simp)
      · rw [if_neg hx] at h
        simp only [Prod.mk.injEq] at h
        exact absurd h.2 (by simp)

theorem outerLoop_prepare (g : GeosOracle) (n : Nat) :
    ∀ (is : List Nat) (st st1 : ClassState), outerLoop g n is st = .ok st1 →
      ∀ i, i ∈ is → g.prepare i = true := by
  intro is
  induction is with
  | nil => intro _ _ _ i hi; exact absurd hi (List.not_mem_nil i)
  | cons a rest ih =>
    intro st st1 h i hi
    unfold outerLoop at h
    cases hstep : outerStep g n a st with
    | error e => rw [hstep] at h; exact absurd h (by simp)
    | ok st2 =>
      rw [hstep] at h
      rcases List.mem_cons.mp hi with rfl | hmem
      · by_contra hp
        unfold outerStep at hstep
        rw [if_neg hp] at hstep
        exact absurd hstep (by simp)
      · exact ih st2 st1 h i hmem

theorem classify_prepare (g : GeosOracle) (rings : List Ring) (st : ClassState)
    (h : classify g rings = .ok st) :
    rings ≠ [] ∧ ∀ i, i < rings.length → g.prepare i = true := by
  cases rings with
  | nil => unfold classify at h; exact absurd h (by simp)
  | cons r rs =>
    refine ⟨by simp, ?_⟩
    intro i hi
    unfold classify at h
    exact outerLoop_prepare g _ _ _ _ h i (List.mem_range.mpr hi)

/-- The destroy log of the assembly over a classified state holds every ring
exactly once. -/
theorem final_destroy_count {g : GeosOracle} {n : Nat} {st : ClassState}
    (hI : InvCore g n (fun k => parentAt g k k) n st)
    (horder : ∀ s, (g.rangeOrder s).Perm s) (k : Nat) (hk : k < n) :
    ((g.rangeOrder st.shells).flatMap
      (fun s => g.rangeOrder (holesOf st.rings s) ++ [s])).count k = 1 := by
  have hmemS : ∀ x, x ∈ g.rangeOrder st.shells ↔ x ∈ st.shells :=
    fun x => (horder st.shells).mem_iff
  have hmemH : ∀ s x, x ∈ g.rangeOrder (holesOf st.rings s) ↔ x ∈ holesOf st.rings s :=
    fun s x => (horder (holesOf st.rings s)).mem_iff
  apply List.count_eq_one_of_mem
  · rw [List.nodup_flatMap]
    constructor
    · intro s _
      rw [List.nodup_append]
      refine ⟨(horder _).nodup_iff.mpr (hI.nodupH s), List.nodup_singleton s, ?_⟩
      intro a ha hb
      rw [List.mem_singleton] at hb
      subst hb
      rw [hmemH] at ha
      obtain ⟨_, _, h2, _⟩ := final_not_in_holes hI ha
      rcases parentAt_range g a a with h | ⟨_, h1, _⟩
      · omega
      · omega
    · refine List.Pairwise.imp_of_mem ?_ (List.Nodup.pairwise_of_forall_ne
        ((horder _).nodup_iff.mpr hI.nodupS) (r := fun a b => a ≠ b) (fun a _ b _ hab => hab))
      intro a b ha hb hab
      intro x hxa hxb
      rw [hmemS] at ha hb
      rw [List.mem_append, List.mem_singleton, hmemH] at hxa hxb
      rcases hxa with hxa | hxa <;> rcases hxb with hxb | hxb
      · have h1 := (final_not_in_holes hI hxa).2.2.1
        have h2 := (final_not_in_holes hI hxb).2.2.1
        omega
      · subst hxb
        obtain ⟨_, _, h2, h3⟩ := final_not_in_holes hI hxa
        rcases (hI.shells x).mp hb with ⟨_, h | ⟨h, _⟩ | ⟨_, h⟩⟩
        · subst h
          have : parentAt g 0 0 = -1 := rfl
          omega
        · omega
        · simp only [h2, Int.toNat_ofNat] at h
          omega
      · subst hxa
        obtain ⟨_, _, h2, h3⟩ := final_not_in_holes hI hxb
        rcases (hI.shells x).mp ha with ⟨_, h | ⟨h, _⟩ | ⟨_, h⟩⟩
        · subst h
          have : parentAt g 0 0 = -1 := rfl
          omega
        · omega
        · simp only [h2, Int.toNat_ofNat] at h
          omega
      · exact hab (hxa.symm.trans hxb)
  · rw [List.mem_flatMap]
    have hshell : ∀ r, r < n → (parentAt g r r = -1 ∨ fdepth g r % 2 = 0) → fdepth g r % 2 = 0 →
        r ∈ st.shells := by
      intro r hr _ hev
      by_cases hroot : parentAt g r r = -1
      · exact (hI.shells r).mpr ⟨hr, Or.inr (Or.inl ⟨hroot, hr⟩)⟩
      · refine (hI.shells r).mpr ⟨hr, Or.inr (Or.inr ⟨hroot, ?_⟩)⟩
        have hd := fdepth_child g r hroot
        show fdepth g (parentAt g r r).toNat % 2 = 1
        omega
    by_cases hev : fdepth g k % 2 = 0
    · exact ⟨k, (hmemS k).mpr (hshell k hk (Or.inr hev) hev), by simp⟩
    · have hroot : parentAt g k k ≠ -1 := by
        intro h
        rw [fdepth_root g k h] at hev
        omega
      rcases parentAt_range g k k with h | ⟨h0, h1, _⟩
      · exact absurd h hroot
      · obtain ⟨p, hp⟩ : ∃ p : Nat, parentAt g k k = (p : Int) :=
          ⟨(parentAt g k k).toNat, by omega⟩
        have hd := fdepth_child g k hroot
        rw [hp, Int.toNat_ofNat] at hd
        have hpe : fdepth g p % 2 = 0 := by omega
        refine ⟨p, (hmemS p).mpr (hshell p (by omega) (Or.inr hpe) hpe), ?_⟩
        rw [List.mem_append, hmemH]
        exact Or.inl ((hI.holes p k (by omega)).mpr ⟨hk, hp, hpe⟩)

/-- C5: when `BuildRelGeometry` returns without error on fresh rings, `Destroy` was
called exactly once on the geometry of every ring of the input list, in whatever
order the two maps are walked. -/
theorem C5_each_ring_destroyed_once (g : GeosOracle) (rel : Relation) (rings : List Ring)
    (hfresh : ∀ r, r ∈ rings → r.isFresh) (horder : ∀ s, (g.rangeOrder s).Perm s)
    (geom : MultiGeom)
    (hok : (BuildRelGeometry g rel rings).outcome = .ok geom) :
    ∀ k, k < rings.length → (BuildRelGeometry g rel rings).destroyed.count k = 1 := by
  intro k hk
  unfold BuildRelGeometry at hok
  have hres : (BuildRelGeometry g rel rings).destroyed =
      (match classify g rings with
        | .error _ => []
        | .ok st => (shellsLoop g st.rings (g.rangeOrder st.shells) [] []).1) := by
    unfold BuildRelGeometry
    cases classify g rings with
    | error e => rfl
    | ok st =>
      simp only
      rcases shellsLoop g st.rings (g.rangeOrder st.shells) [] [] with ⟨d, res⟩
      cases res with
      | error e => rfl
      | ok polygons =>
        simp only
        cases compose g polygons <;> rfl
  rw [hres]
  cases hc : classify g rings with
  | error e => rw [hc] at hok; exact absurd hok (by simp)
  | ok st =>
    rw [hc] at hok
    simp only at hok ⊢
    obtain ⟨hne, hprep⟩ := classify_prepare g rings st hc
    obtain ⟨st1, hst1, hI, _⟩ := classify_final g rings hne hfresh hprep
    have : st1 = st := by rw [hc] at hst1; exact (Except.ok.inj hst1).symm
    subst this
    rcases hs : shellsLoop g st1.rings (g.rangeOrder st1.shells) [] [] with ⟨d, res⟩
    rw [hs] at hok
    cases res with
    | error e => exact absurd hok (by simp)
    | ok polygons =>
      have hd := shellsLoop_ok g _ _ _ _ _ _ hs
      rw [List.nil_append] at hd
      have hcount := final_destroy_count hI horder k hk
      rw [← hd] at hcount
      exact hcount

theorem C5_witness :
    (BuildRelGeometry nestedGeos emptyRelation
        [freshRing, freshRing, freshRing]).outcome =
      .ok { polygons := [(0, [1]), (2, [])], buffered := false } ∧
    (BuildRelGeometry nestedGeos emptyRelation
        [freshRing, freshRing, freshRing]).destroyed.count 0 = 1 ∧
    (BuildRelGeometry nestedGeos emptyRelation
        [freshRing, freshRing, freshRing]).destroyed.count 1 = 1 ∧
    (BuildRelGeometry nestedGeos emptyRelation
        [freshRing, freshRing, freshRing]).destroyed.count 2 = 1 :=
  ⟨by decide,
    C5_each_ring_destroyed_once nestedGeos emptyRelation [freshRing, freshRing, freshRing]
      (by decide) (fun s => List.Perm.refl s) { polygons := [(0, [1]), (2, [])], buffered := false }
      (by decide) 0 (by decide),
    C5_each_ring_destroyed_once nestedGeos emptyRelation [freshRing, freshRing, freshRing]
      (by decide) (fun s => List.Perm.refl s) { polygons := [(0, [1]), (2, [])], buffered := false }
      (by decide) 1 (by decide),
    C5_each_ring_destroyed_once nestedGeos emptyRelation [freshRing, freshRing, freshRing]
      (by decide) (fun s => List.Perm.refl s) { polygons := [(0, [1]), (2, [])], buffered := false }
      (by decide) 2 (by decide)⟩

/-- C6 (failing input): with one ring whose geometry cannot be prepared,
`BuildRelGeometry` returns the error and has destroyed no ring geometry: the
geometry of ring 0 stays live. With two disjoint rings and a failing exterior
ring of ring 0 the call returns an error after destroying ring 0 only, when the
shells are walked in insertion order. -/
theorem C6_build_error_leaks_ring_geometry :
    (BuildRelGeometry noPrepareGeos emptyRelation [freshRing]).outcome =
        .error (.err "Error while preparing geometry") ∧
      (BuildRelGeometry noPrepareGeos emptyRelation [freshRing]).destroyed.count 0 = 0 ∧
      freshRing.geom ≠ none ∧
      (BuildRelGeometry noExteriorGeos emptyRelation [freshRing, freshRing]).outcome =
        .error (.err "Error while getting exterior ring.") ∧
      (BuildRelGeometry noExteriorGeos emptyRelation [freshRing, freshRing]).destroyed.count 1
        = 0 := by
  decide

/-! ## C8: `relId` -/

theorem wrap64_of_range (x : Int) (h1 : -2 ^ 63 ≤ x) (h2 : x < 2 ^ 63) : wrap64 x = x := by
  unfold wrap64
  omega

theorem wrap64_inj_neg (c a b : Int) (ha1 : -2 ^ 63 ≤ a) (ha2 : a < 2 ^ 63)
    (hb1 : -2 ^ 63 ≤ b) (hb2 : b < 2 ^ 63) (h : wrap64 (c - a) = wrap64 (c - b)) : a = b := by
  unfold wrap64 at h
  omega

/-- C8 (as stated, refuted): in single-id-space mode the relation id `2^63 - 1`
is mapped by `relId` to the positive number `9123372036854775809`, which is a
node id and is not below `-10^17`. -/
theorem C8_relId_wraps_to_node_id :
    (0 : Int) < 9223372036854775807 ∧ (9223372036854775807 : Int) < 2 ^ 63 ∧
      (0 : Int) < 9123372036854775809 ∧
      relId true 9223372036854775807 = 9123372036854775809 ∧
      ¬ (relId true 9223372036854775807 < -10 ^ 17) := by
  decide

/-- C8 (amended): `relId` is `RelIdOffset - id` (single id space) resp. `-id` in
`int64` arithmetic, and exactly that number when it does not overflow; for a
relation id `0 < r ≤ 2^63 - 10^17` the single-id-space output is below
`-10^17`, so it differs from every node id `n > 0` and from every mangled way
id `-w` with `0 < w < 10^17`; `relId` is injective on `int64`. -/
theorem C8_relId_amended :
    (∀ id, relId false id = wrap64 (-id) ∧ relId true id = wrap64 (RelIdOffset - id)) ∧
    (∀ id, -2 ^ 63 < id → id < 2 ^ 63 → relId false id = -id) ∧
    (∀ id, -2 ^ 63 ≤ id → id ≤ 2 ^ 63 - 10 ^ 17 → relId true id = RelIdOffset - id) ∧
    (∀ r n w : Int, 0 < r → r ≤ 2 ^ 63 - 10 ^ 17 → 0 < n → 0 < w → w < 10 ^ 17 →
      relId true r < -10 ^ 17 ∧ relId true r ≠ n ∧ relId true r ≠ -w) ∧
    (∀ (s : Bool) (a b : Int), -2 ^ 63 ≤ a → a < 2 ^ 63 → -2 ^ 63 ≤ b → b < 2 ^ 63 →
      relId s a = relId s b → a = b) := by
  refine ⟨fun id => ⟨rfl, rfl⟩, ?_, ?_, ?_, ?_⟩
  · intro id h1 h2
    show wrap64 (-id) = -id
    exact wrap64_of_range _ (by omega) (by omega)
  · intro id h1 h2
    show wrap64 (RelIdOffset - id) = RelIdOffset - id
    unfold RelIdOffset
    exact wrap64_of_range _ (by omega) (by omega)
  · intro r n w hr1 hr2 hn hw1 hw2
    have h : relId true r = RelIdOffset - r := by
      show wrap64 (RelIdOffset - r) = RelIdOffset - r
      unfold RelIdOffset
      exact wrap64_of_range _ (by omega) (by omega)
    rw [h]
    unfold RelIdOffset
    refine ⟨by omega, by omega, by omega⟩
  · intro s a b ha1 ha2 hb1 hb2 h
    cases s with
    | false =>
      have h2 : wrap64 (0 - a) = wrap64 (0 - b) := by
        simp only [Int.zero_sub]
        exact h
      exact wrap64_inj_neg 0 a b ha1 ha2 hb1 hb2 h2
    | true => exact wrap64_inj_neg RelIdOffset a b ha1 ha2 hb1 hb2 h

theorem C8_witness :
    relId true 5 < -10 ^ 17 ∧ relId true 5 ≠ 5 ∧ relId true 5 ≠ -(5 : Int) :=
  C8_relId_amended.2.2.2.1 5 5 5 (by decide) (by decide) (by decide) (by decide) (by decide)

/-! ## C9: `relationTags` -/

theorem lookup_tagsSet_self (t : Tags) (k v : String) : (tagsSet t k v).lookup k = some v := by
  induction t with
  | nil => simp [tagsSet, List.lookup]
  | cons kv rest ih =>
    obtain ⟨k1, v1⟩ := kv
    unfold tagsSet
    by_cases h : k1 = k
    · rw [if_pos h]; simp [List.lookup]
    · rw [if_neg h]
      have hb : (k == k1) = false := by simpa using fun e => h e.symm
      simp only [List.lookup, hb]
      exact ih

theorem lookup_tagsSet_other (t : Tags) (k v k2 : String) (hk : k2 ≠ k) :
    (tagsSet t k v).lookup k2 = t.lookup k2 := by
  induction t with
  | nil =>
    have hb : (k2 == k) = false := by simpa using hk
    simp [tagsSet, List.lookup, hb]
  | cons kv rest ih =>
    obtain ⟨k1, v1⟩ := kv
    unfold tagsSet
    by_cases h : k1 = k
    · rw [if_pos h]
      subst h
      have hb : (k2 == k1) = false := by simpa using hk
      simp [List.lookup, hb]
    · rw [if_neg h]
      by_cases h2 : k2 = k1
      · subst h2; simp [List.lookup]
      · have hb : (k2 == k1) = false := by simpa using h2
        simp only [List.lookup, hb]
        exact ih

theorem keys_tagsSet (t : Tags) (k v k2 : String) :
    k2 ∈ (tagsSet t k v).map Prod.fst ↔ k2 = k ∨ k2 ∈ t.map Prod.fst := by
  induction t with
  | nil => simp [tagsSet]
  | cons kv rest ih =>
    obtain ⟨k1, v1⟩ := kv
    unfold tagsSet
    by_cases h : k1 = k
    · rw [if_pos h]; subst h; simp
    · rw [if_neg h]
      simp only [List.map_cons, List.mem_cons, ih]
      tauto

theorem nodup_keys_tagsSet (t : Tags) (k v : String) (h : (t.map Prod.fst).Nodup) :
    ((tagsSet t k v).map Prod.fst).Nodup := by
  induction t with
  | nil => simp [tagsSet]
  | cons kv rest ih =>
    obtain ⟨k1, v1⟩ := kv
    rw [List.map_cons, List.nodup_cons] at h
    unfold tagsSet
    by_cases hk : k1 = k
    · rw [if_pos hk]; subst hk
      rw [List.map_cons, List.nodup_cons]
      exact h
    · rw [if_neg hk, List.map_cons, List.nodup_cons]
      refine ⟨?_, ih h.2⟩
      intro hmem
      rcases (keys_tagsSet rest k v k1).mp hmem with h1 | h1
      · exact hk h1
      · exact h.1 h1

theorem lookup_of_not_mem_keys (t : Tags) (k : String) (h : k ∉ t.map Prod.fst) :
    t.lookup k = none := by
  induction t with
  | nil => rfl
  | cons kv rest ih =>
    obtain ⟨k1, v1⟩ := kv
    rw [List.map_cons, List.mem_cons, not_or] at h
    have hb : (k == k1) = false := by simpa using h.1
    simp only [List.lookup, hb]
    exact ih h.2

theorem lookup_copy_loop (l : Tags) (hwf : (l.map Prod.fst).Nodup) :
    ∀ (acc : Tags) (k : String),
      (l.foldl (fun result kv => tagsSet result kv.1 kv.2) acc).lookup k =
        match l.lookup k with
        | some v => some v
        | none => acc.lookup k := by
  induction l with
  | nil => intro acc k; rfl
  | cons kv rest ih =>
    obtain ⟨k1, v1⟩ := kv
    rw [List.map_cons, List.nodup_cons] at hwf
    intro acc k
    rw [List.foldl_cons, ih hwf.2]
    by_cases hk : k = k1
    · subst hk
      rw [lookup_of_not_mem_keys rest k hwf.1]
      simp [List.lookup, lookup_tagsSet_self]
    · have hb : (k == k1) = false := by simpa using hk
      simp only [List.lookup, hb]
      rw [lookup_tagsSet_other acc k1 v1 k hk]

theorem nodup_copy_loop (l : Tags) :
    ∀ (acc : Tags), (acc.map Prod.fst).Nodup →
      ((l.foldl (fun result kv => tagsSet result kv.1 kv.2) acc).map Prod.fst).Nodup := by
  induction l with
  | nil => intro acc h; exact h
  | cons kv rest ih =>
    intro acc h
    rw [List.foldl_cons]
    exact ih _ (nodup_keys_tagsSet acc kv.1 kv.2 h)

/-- The copy loop of `relationTags` on the entries: for a well-formed map
`relTags` the result has exactly the entries of `relTags` (every key, `name` and
`type` included, looks up the same value), is again a well-formed map, does not
depend on `wayTags`, and is empty for empty `relTags` whatever `wayTags` is. -/
theorem relationTags_copies_relTags (relTags wayTags : Tags)
    (hwf : (relTags.map Prod.fst).Nodup) :
    (∀ k, tagsGet? (relationTags relTags wayTags) k = tagsGet? relTags k) ∧
    ((relationTags relTags wayTags).map Prod.fst).Nodup ∧
    (∀ wayTags2, relationTags relTags wayTags2 = relationTags relTags wayTags) ∧
    relationTags [] wayTags = [] := by
  refine ⟨?_, ?_, fun _ => rfl, rfl⟩
  · intro k
    unfold tagsGet? relationTags
    rw [lookup_copy_loop relTags hwf [] k]
    cases relTags.lookup k <;> rfl
  · exact nodup_copy_loop relTags [] List.nodup_nil

/-! ## C7: `BuildRings` -/

theorem polygonizeClosed_ok (ops : RingOps) :
    ∀ (rs complete incomplete : List Ring) (created : List Nat),
      (∀ r, r ∈ rs → ops.isClosed r = true → ∃ h, ops.polygon r = .ok h) →
      ∃ c1 cr1, polygonizeClosed ops rs complete incomplete created =
          (complete ++ c1, incomplete ++ rs.filter (fun r => !ops.isClosed r),
            created ++ cr1, none) ∧
        c1.length = (rs.filter ops.isClosed).length := by
  intro rs
  induction rs with
  | nil =>
    intro complete incomplete created _
    exact ⟨[], [], by simp [polygonizeClosed], rfl⟩
  | cons r rest ih =>
    intro complete incomplete created hpoly
    have hrest : ∀ x, x ∈ rest → ops.isClosed x = true → ∃ h, ops.polygon x = .ok h :=
      fun x hx => hpoly x (List.mem_cons_of_mem r hx)
    unfold polygonizeClosed
    by_cases hc : ops.isClosed r = true
    · obtain ⟨h, hh⟩ := hpoly r (List.mem_cons_self r rest) hc
      obtain ⟨c1, cr1, heq, hlen⟩ := ih (complete ++ [{ r with geom := some h }]) incomplete
        (created ++ [h]) hrest
      refine ⟨{ r with geom := some h } :: c1, h :: cr1, ?_, ?_⟩
      · rw [if_pos hc, hh]
        simp only
        rw [heq]
        simp [hc]
      · simp [hc, hlen]
    · obtain ⟨c1, cr1, heq, hlen⟩ := ih complete (incomplete ++ [r]) created hrest
      refine ⟨c1, cr1, ?_, ?_⟩
      · rw [if_neg hc, heq]
        simp [hc]
      · simp [hc, hlen]

theorem polygonizeMerged_reach (ops : RingOps) (m : Ring) (post : List Ring)
    (hm : closeRing ops m = none) :
    ∀ (pre done : List Ring) (created : List Nat),
      (∀ r, r ∈ pre → ∃ r1 h, closeRing ops r = some r1 ∧ ops.polygon r1 = .ok h) →
      ∃ l cr, polygonizeMerged ops (pre ++ m :: post) done created =
        (l, cr, some ErrorNoRing) := by
  intro pre
  induction pre with
  | nil =>
    intro done created _
    refine ⟨done ++ m :: post, created, ?_⟩
    show polygonizeMerged ops (m :: post) done created = _
    unfold polygonizeMerged
    rw [hm]
  | cons r rest ih =>
    intro done created hpre
    obtain ⟨r1, h, hr1, hh⟩ := hpre r (List.mem_cons_self r rest)
    obtain ⟨l, cr, heq⟩ := ih (done ++ [{ r1 with geom := some h }]) (created ++ [h])
      (fun x hx => hpre x (List.mem_cons_of_mem r hx))
    refine ⟨l, cr, ?_⟩
    show polygonizeMerged ops (r :: (rest ++ m :: post)) done created = _
    unfold polygonizeMerged
    rw [hr1]
    simp only
    rw [hh]
    exact heq

theorem polygonizeMerged_length (ops : RingOps) :
    ∀ (rs done l : List Ring) (created cr : List Nat),
      polygonizeMerged ops rs done created = (l, cr, none) →
      l.length = done.length + rs.length := by
  intro rs
  induction rs with
  | nil =>
    intro done l created cr h
    unfold polygonizeMerged at h
    simp only [Prod.mk.injEq] at h
    rw [← h.1]
    rfl
  | cons r rest ih =>
    intro done l created cr h
    unfold polygonizeMerged at h
    cases hc : closeRing ops r with
    | none =>
      rw [hc] at h
      simp only [Prod.mk.injEq] at h
      exact absurd h.2.2 (by simp)
    | some r1 =>
      rw [hc] at h
      simp only at h
      cases hp : ops.polygon r1 with
      | error e =>
        rw [hp] at h
        simp only [Prod.mk.injEq] at h
        exact absurd h.2.2 (by simp)
      | ok hd =>
        rw [hp] at h
        simp only at h
        rw [ih _ _ _ _ h]
        simp only [List.length_append, List.length_cons, List.length_nil]
        omega

theorem setAreas_length (ops : RingOps) :
    ∀ (l l1 : List Ring), setAreas ops l = .ok l1 → l1.length = l.length := by
  intro l
  induction l with
  | nil =>
    intro l1 h
    unfold setAreas at h
    rw [← Except.ok.inj h]
  | cons r rest ih =>
    intro l1 h
    unfold setAreas at h
    cases hr : setArea ops r with
    | error e => rw [hr] at h; exact absurd h (by simp)
    | ok r1 =>
      rw [hr] at h
      simp only at h
      cases hrest : setAreas ops rest with
      | error e => rw [hrest] at h; exact absurd h (by simp)
      | ok rs =>
        rw [hrest] at h
        simp only at h
        rw [← Except.ok.inj h, List.length_cons, ih rs hrest, List.length_cons]

theorem BuildRings_ok_nonempty (ops : RingOps) (rel : Relation) (rings : List Ring)
    (h : (BuildRings ops rel).outcome = .ok rings) : rings ≠ [] := by
  unfold BuildRings at h
  rcases hpc : polygonizeClosed ops (memberRings rel) [] [] [] with
    ⟨complete, incomplete, created, e⟩
  rw [hpc] at h
  cases e with
  | some e => exact absurd h (by simp)
  | none =>
    simp only at h
    by_cases hz : complete.length + (ops.mergeRings incomplete).length = 0
    · rw [if_pos hz] at h
      exact absurd h (by simp [ErrorNoRing])
    · rw [if_neg hz] at h
      rcases hpm : polygonizeMerged ops (ops.mergeRings incomplete) [] created with
        ⟨merged1, created1, e2⟩
      rw [hpm] at h
      cases e2 with
      | some e2 => exact absurd h (by simp)
      | none =>
        simp only at h
        have hlen := polygonizeMerged_length ops _ _ _ _ _ hpm
        cases hsa : setAreas ops (complete ++ merged1) with
        | error e3 => rw [hsa] at h; exact absurd h (by simp)
        | ok withArea =>
          rw [hsa] at h
          simp only at h
          have hl := setAreas_length ops _ _ hsa
          have hrings := Except.ok.inj h
          intro hnil
          rw [hnil] at hrings
          have hlen2 := congrArg List.length hrings
          rw [List.length_insertionSort, hl, List.length_append, hlen] at hlen2
          simp only [List.length_nil, Nat.zero_add] at hlen2
          omega

/-- C7: `BuildRings` returns `ErrorNoRing` when no member ring is closed and the
merger returns no ring (so also when no member has a resolved way and the
merger of nothing is nothing), and when the second loop reaches a merged ring
that is not closed and on which `TryClose` fails; and a list returned without
error is non-empty, so `rings[0]` exists. -/
theorem C7_BuildRings_ErrorNoRing_or_nonempty (ops : RingOps) (rel : Relation) :
    ((∀ r, r ∈ memberRings rel → ops.isClosed r = false) →
        ops.mergeRings (memberRings rel) = [] →
        (BuildRings ops rel).outcome = .error ErrorNoRing) ∧
    ((∀ m, m ∈ rel.Members → m.Way = none) → ops.mergeRings [] = [] →
        (BuildRings ops rel).outcome = .error ErrorNoRing) ∧
    (∀ (pre : List Ring) (m : Ring) (post : List Ring),
        (∀ r, r ∈ memberRings rel → ops.isClosed r = true → ∃ h, ops.polygon r = .ok h) →
        ops.mergeRings ((memberRings rel).filter (fun r => !ops.isClosed r)) =
          pre ++ m :: post →
        (∀ r, r ∈ pre → ∃ r1 h, closeRing ops r = some r1 ∧ ops.polygon r1 = .ok h) →
        ops.isClosed m = false → ops.tryClose m = false →
        (BuildRings ops rel).outcome = .error ErrorNoRing) ∧
    (∀ rings, (BuildRings ops rel).outcome = .ok rings →
        rings ≠ [] ∧ ∃ r0, rings[0]? = some r0) := by
  have hA : (∀ r, r ∈ memberRings rel → ops.isClosed r = false) →
      ops.mergeRings (memberRings rel) = [] →
      (BuildRings ops rel).outcome = .error ErrorNoRing := by
    intro hopen hmerge
    obtain ⟨c1, cr1, heq, hlen⟩ := polygonizeClosed_ok ops (memberRings rel) [] [] []
      (fun r hr hc => by rw [hopen r hr] at hc; exact absurd hc (by simp))
    have hf1 : (memberRings rel).filter ops.isClosed = [] := by
      rw [List.filter_eq_nil_iff]
      intro r hr
      rw [hopen r hr]
      simp
    have hf2 : (memberRings rel).filter (fun r => !ops.isClosed r) = memberRings rel := by
      rw [List.filter_eq_self]
      intro r hr
      rw [hopen r hr]
      rfl
    rw [hf1, List.length_nil] at hlen
    have hc1 : c1 = [] := List.length_eq_zero.mp hlen
    rw [hc1, hf2] at heq
    unfold BuildRings
    rw [heq]
    simp only [List.nil_append, hmerge, List.length_nil, Nat.add_zero, if_true]
  refine ⟨hA, ?_, ?_, ?_⟩
  · intro hway hmerge
    have hnil : memberRings rel = [] := by
      unfold memberRings
      rw [List.filterMap_eq_nil_iff]
      intro m hm
      rw [hway m hm]
      rfl
    apply hA
    · intro r hr
      rw [hnil] at hr
      exact absurd hr (List.not_mem_nil r)
    · rw [hnil]; exact hmerge
  · intro pre m post hpoly hmerge hpre hm1 hm2
    obtain ⟨c1, cr1, heq, _⟩ := polygonizeClosed_ok ops (memberRings rel) [] [] [] hpoly
    have hclose : closeRing ops m = none := by
      unfold closeRing
      rw [hm1, hm2]
      rfl
    obtain ⟨l, cr, hpm⟩ := polygonizeMerged_reach ops m post hclose pre [] ([] ++ cr1) hpre
    unfold BuildRings
    rw [heq]
    simp only [List.nil_append] at hpm ⊢
    rw [hmerge, if_neg (by simp), hpm]
  · intro rings h
    have hne := BuildRings_ok_nonempty ops rel rings h
    refine ⟨hne, ?_⟩
    cases rings with
    | nil => exact absurd rfl hne
    | cons r0 rest => exact ⟨r0, by simp⟩

theorem C7_witness :
    (BuildRings exampleRingOps openWayRelation).outcome = .error ErrorNoRing ∧
    ((BuildRings exampleRingOps closedWayRelation).outcome =
        .ok [{ ways := [{ Id := 10, Refs := [1, 2, 3, 4, 1], Tags := [] }],
               refs := [1, 2, 3, 4, 1], geom := some 5, area := 5, containedBy := -1,
               holes := [] }] ∧
      ([{ ways := [{ Id := 10, Refs := [1, 2, 3, 4, 1], Tags := [] }],
          refs := [1, 2, 3, 4, 1], geom := some 5, area := 5, containedBy := -1,
          holes := [] }] : List Ring) ≠ []) :=
  ⟨(C7_BuildRings_ErrorNoRing_or_nonempty exampleRingOps openWayRelation).2.2.1 []
      (NewRing { Id := 10, Refs := [1, 2, 3], Tags := [] }) []
      (fun r _ _ => ⟨r.refs.length, rfl⟩) (by decide)
      (fun r hr => absurd hr (List.not_mem_nil r)) (by decide) (by decide),
    by decide,
    ((C7_BuildRings_ErrorNoRing_or_nonempty exampleRingOps closedWayRelation).2.2.2 _
      (by decide)).1⟩

/-! ## C10: street relations -/

theorem streetHouses_eq (ms : List Member) :
    ∀ (streets houses : List String),
      streetHouses ms streets houses = (streets ++ specStreets ms, houses ++ specHouses ms) := by
  induction ms with
  | nil => intro streets houses; simp [streetHouses, specStreets, specHouses]
  | cons m rest ih =>
    intro streets houses
    unfold streetHouses
    simp only
    rw [ih]
    congr 1
    · by_cases h : m.Role = "street" ∧ m.Type_ = 1
      · simp [specStreets, h]
      · simp [specStreets, h]
    · by_cases h : m.Role = "house" ∧ (m.Type_ = 1 ∨ m.Type_ = 2)
      · simp [specHouses, h, Int.mul_neg_one]
      · simp [specHouses, h]

theorem warnLevel_not_insert (env : WriterEnv) (msg : String) :
    ∀ e, e ∈ warnLevel env msg → e = .warn msg := by
  intro e he
  unfold warnLevel at he
  cases hl : env.errorLevel msg with
  | none => rw [hl] at he; simpa using he
  | some l =>
    rw [hl] at he
    by_cases hpos : l > 0
    · simp only [hpos, if_true] at he; simpa using he
    · simp only [hpos, if_false] at he; exact absurd he (List.not_mem_nil e)

theorem filter_isInsert_warnLevel (env : WriterEnv) (msg : String) :
    (warnLevel env msg).filter Event.isInsert = [] := by
  rw [List.filter_eq_nil_iff]
  intro e he
  rw [warnLevel_not_insert env msg e he]
  simp [Event.isInsert]

/-- C10: for a relation of type `street` or `associatedStreet`, with S and H
the street and house id lists of its members: if both are non-empty the writer
sets the tags `streets` and `houses` to the lists joined by ", " and makes
exactly one insert call, `InsertPoint` with id `relId(r.Id)`; if one is empty
the relation is unchanged and nothing is inserted; in both cases no call of the
polygon path is made and the writer does not panic. The negation of a relation
id is the one of `int64`, which is the number `-id` for every id above the least
`int64`. Scenario S6: members (way 7 role street, way 11 role house) give
`streets="7"`, `houses="11"` and one `InsertPoint`. -/
theorem C10_street_relation_inserts_point :
    (∀ (env : WriterEnv) (r : Relation),
      (tagsGet r.Tags "type" = "street" ∨ tagsGet r.Tags "type" = "associatedStreet") →
      ((specStreets r.Members ≠ [] ∧ specHouses r.Members ≠ [] →
          (processRelation env r).rel.Tags =
            tagsSet (tagsSet r.Tags "streets" (joinComma (specStreets r.Members))) "houses"
              (joinComma (specHouses r.Members)) ∧
          tagsGet? (processRelation env r).rel.Tags "streets" =
            some (joinComma (specStreets r.Members)) ∧
          tagsGet? (processRelation env r).rel.Tags "houses" =
            some (joinComma (specHouses r.Members)) ∧
          (processRelation env r).events.filter Event.isInsert =
            [Event.insertPoint (relId env.singleIdSpace r.Id) (processRelation env r).rel.Tags
              (env.streetMatcher (processRelation env r).rel)]) ∧
        (specStreets r.Members = [] ∨ specHouses r.Members = [] →
          (processRelation env r).rel = r ∧
          (processRelation env r).events.filter Event.isInsert = []) ∧
        (processRelation env r).fault = none ∧
        ∀ e, e ∈ (processRelation env r).events → e.isPolygonPath = false)) ∧
    (∀ ms : List Member, (∀ m, m ∈ ms → -2 ^ 63 < m.Id ∧ m.Id < 2 ^ 63) →
      specHouses ms =
        (ms.filter (fun m => decide (m.Role = "house" ∧ (m.Type_ = 1 ∨ m.Type_ = 2)))).map
          (fun m => FormatInt (if m.Type_ = 2 then -m.Id else m.Id))) ∧
    processRelation exampleEnv streetRelation =
      { events := [Event.addRelations,
          Event.insertPoint (-5)
            [("type", "associatedStreet"), ("streets", "7"), ("houses", "11")] ["streets"]],
        fault := none,
        rel := { streetRelation with
          Tags := [("type", "associatedStreet"), ("streets", "7"), ("houses", "11")] } } := by
  refine ⟨?_, ?_, by decide⟩
  rotate_left
  · intro ms hms
    unfold specHouses
    apply List.map_congr_left
    intro m hm
    have hr := hms m (List.mem_of_mem_filter hm)
    by_cases h2 : m.Type_ = 2
    · rw [if_pos h2, if_pos h2, wrap64_of_range _ (by omega) (by omega)]
    · rw [if_neg h2, if_neg h2]
  intro env r htype
  have hproc : processRelation env r = streetBranch env r := by
    unfold processRelation
    rw [if_pos htype]
  rw [hproc]
  unfold streetBranch
  rw [streetHouses_eq]
  simp only [List.nil_append]
  by_cases hS : specStreets r.Members = []
  · have hcond : ¬ ((specStreets r.Members).length > 0 ∧ (specHouses r.Members).length > 0) := by
      rw [hS]; simp
    rw [if_neg hcond]
    refine ⟨fun h => absurd hS h.1, fun _ => ⟨rfl, by simp [Event.isInsert]⟩, rfl, ?_⟩
    intro e he
    simp only [List.mem_singleton] at he
    rw [he]; rfl
  · by_cases hH : specHouses r.Members = []
    · have hcond : ¬ ((specStreets r.Members).length > 0 ∧
          (specHouses r.Members).length > 0) := by
        rw [hH]; simp
      rw [if_neg hcond]
      refine ⟨fun h => absurd hH h.2, fun _ => ⟨rfl, by simp [Event.isInsert]⟩, rfl, ?_⟩
      intro e he
      simp only [List.mem_singleton] at he
      rw [he]; rfl
    · have hS1 : (specStreets r.Members).length > 0 := List.length_pos.mpr hS
      have hH1 : (specHouses r.Members).length > 0 := List.length_pos.mpr hH
      rw [if_pos ⟨hS1, hH1⟩]
      simp only [hS1, hH1, if_true]
      have hne : ("streets" : String) ≠ "houses" := by decide
      have hget1 : tagsGet? (tagsSet (tagsSet r.Tags "streets"
          (joinComma (specStreets r.Members))) "houses" (joinComma (specHouses r.Members)))
          "streets" = some (joinComma (specStreets r.Members)) := by
        unfold tagsGet?
        rw [lookup_tagsSet_other _ _ _ _ hne, lookup_tagsSet_self]
      have hget2 : tagsGet? (tagsSet (tagsSet r.Tags "streets"
          (joinComma (specStreets r.Members))) "houses" (joinComma (specHouses r.Members)))
          "houses" = some (joinComma (specHouses r.Members)) := by
        unfold tagsGet?
        rw [lookup_tagsSet_self]
      cases hins : env.insertPoint _ _ with
      | none =>
        refine ⟨fun _ => ⟨rfl, hget1, hget2, by simp [Event.isInsert]⟩, ?_, rfl, ?_⟩
        · rintro (h | h)
          · exact absurd h hS
          · exact absurd h hH
        · intro e he
          simp only [List.mem_cons, List.mem_singleton, List.not_mem_nil, or_false] at he
          rcases he with he | he <;> (rw [he]; rfl)
      | some msg =>
        refine ⟨fun _ => ⟨rfl, hget1, hget2, ?_⟩, ?_, rfl, ?_⟩
        · simp only [List.filter_append, filter_isInsert_warnLevel]
          simp [Event.isInsert]
        · rintro (h | h)
          · exact absurd h hS
          · exact absurd h hH
        · intro e he
          rw [List.mem_append] at he
          rcases he with he | he
          · simp only [List.mem_cons, List.mem_singleton, List.not_mem_nil, or_false] at he
            rcases he with he | he <;> (rw [he]; rfl)
          · rw [warnLevel_not_insert env msg e he]; rfl

theorem C10_witness :
    (specStreets streetRelation.Members ≠ [] ∧ specHouses streetRelation.Members ≠ [] →
        (processRelation exampleEnv streetRelation).rel.Tags =
          tagsSet (tagsSet streetRelation.Tags "streets"
            (joinComma (specStreets streetRelation.Members))) "houses"
            (joinComma (specHouses streetRelation.Members)) ∧
        tagsGet? (processRelation exampleEnv streetRelation).rel.Tags "streets" =
          some (joinComma (specStreets streetRelation.Members)) ∧
        tagsGet? (processRelation exampleEnv streetRelation).rel.Tags "houses" =
          some (joinComma (specHouses streetRelation.Members)) ∧
        (processRelation exampleEnv streetRelation).events.filter Event.isInsert =
          [Event.insertPoint (relId exampleEnv.singleIdSpace streetRelation.Id)
            (processRelation exampleEnv streetRelation).rel.Tags
            (exampleEnv.streetMatcher (processRelation exampleEnv streetRelation).rel)]) ∧
      (specStreets streetRelation.Members = [] ∨ specHouses streetRelation.Members = [] →
        (processRelation exampleEnv streetRelation).rel = streetRelation ∧
        (processRelation exampleEnv streetRelation).events.filter Event.isInsert = []) ∧
      (processRelation exampleEnv streetRelation).fault = none ∧
      ∀ e, e ∈ (processRelation exampleEnv streetRelation).events → e.isPolygonPath = false :=
  C10_street_relation_inserts_point.1 exampleEnv streetRelation (by decide)

/-! ## C4: an error of `Build` in the relation writer -/

/-- Whenever `Build` returns an error, the error branch of the writer reads
`r.Geom` from the `nil` relation that `Build` returned, and the goroutine
panics. -/
theorem buildAndInsert_error_panics (env : WriterEnv) (prep : PreparedRelation)
    (tables : List String) (allMembers : List Member) (events : List Event) (msg : String)
    (h : (BuildRelGeometry (env.geos prep.rings) prep.rel prep.rings).outcome =
      .error (.err msg)) :
    (buildAndInsert env prep tables allMembers events).fault = some .nilDereference ∧
      (buildAndInsert env prep tables allMembers events).events = events := by
  have hb : Build (env.geos prep.rings) prep = (none, some (.err msg)) := by
    unfold Build
    simp only [h]
  unfold buildAndInsert
  rw [hb]
  exact ⟨rfl, rfl⟩

/-- C4 (failing input): the multipolygon relation `closedWayRelation` is prepared
and matched, `Build` returns `nil` and the error of `BuildRelGeometry`; the
writer then panics with a nil dereference before any insert, and the street
relation behind it in the channel, which alone is inserted, is never taken. -/
theorem C4_build_error_panics_writer :
    (PrepareRelation failingBuildEnv.ringOps closedWayRelation).toOption.isSome = true ∧
    failingBuildEnv.polygonMatcher closedWayRelation ≠ [] ∧
    ((PrepareRelation failingBuildEnv.ringOps closedWayRelation).toOption.map
        (fun prep => Build (failingBuildEnv.geos prep.rings) prep)) =
      some (none, some (.err "Error while preparing geometry")) ∧
    processRelation failingBuildEnv closedWayRelation =
      { events := [Event.addRelations, Event.fillMembers 1], fault := some .nilDereference,
        rel := closedWayRelation } ∧
    loop failingBuildEnv [closedWayRelation, streetRelation] =
      { events := [Event.addRelations, Event.fillMembers 1], taken := 1,
        fault := some .nilDereference } ∧
    (loop failingBuildEnv [streetRelation]).events.filter Event.isInsert =
      [Event.insertPoint (-5)
        [("type", "associatedStreet"), ("streets", "7"), ("houses", "11")] ["streets"]] := by
  decide

/-! ## The deferred cleanup of `BuildRings` (the ring-engine half of C6) -/

theorem destroyRings_append (a b : List Ring) :
    destroyRings (a ++ b) = destroyRings a ++ destroyRings b := by
  unfold destroyRings
  exact List.filterMap_append a b _

theorem destroyRings_of_no_geom (l : List Ring) (h : ∀ r, r ∈ l → r.geom = none) :
    destroyRings l = [] := by
  unfold destroyRings
  rw [List.filterMap_eq_nil_iff]
  exact h

theorem polygonizeClosed_created (ops : RingOps) :
    ∀ (rs complete incomplete : List Ring) (created : List Nat),
      destroyRings complete = created →
      destroyRings (polygonizeClosed ops rs complete incomplete created).1 =
        (polygonizeClosed ops rs complete incomplete created).2.2.1 := by
  intro rs
  induction rs with
  | nil => intro complete incomplete created h; exact h
  | cons r rest ih =>
    intro complete incomplete created h
    unfold polygonizeClosed
    by_cases hc : ops.isClosed r = true
    · rw [if_pos hc]
      cases hp : ops.polygon r with
      | error e => exact h
      | ok hd =>
        simp only
        apply ih
        rw [destroyRings_append, h]
        rfl
    · rw [if_neg hc]
      exact ih _ _ _ h

theorem polygonizeMerged_created (ops : RingOps) :
    ∀ (rs done : List Ring) (created : List Nat), (∀ r, r ∈ rs → r.geom = none) →
      ∃ fresh, destroyRings (polygonizeMerged ops rs done created).1 =
          destroyRings done ++ fresh ∧
        (polygonizeMerged ops rs done created).2.1 = created ++ fresh := by
  intro rs
  induction rs with
  | nil =>
    intro done created _
    exact ⟨[], by simp [polygonizeMerged], by simp [polygonizeMerged]⟩
  | cons r rest ih =>
    intro done created hgeom
    have hrest : ∀ x, x ∈ rest → x.geom = none :=
      fun x hx => hgeom x (List.mem_cons_of_mem r hx)
    have hr : r.geom = none := hgeom r (List.mem_cons_self r rest)
    unfold polygonizeMerged
    cases hc : closeRing ops r with
    | none =>
      refine ⟨[], ?_, by simp⟩
      simp only [List.append_nil]
      rw [destroyRings_append, destroyRings_of_no_geom (r :: rest) hgeom, List.append_nil]
    | some r1 =>
      simp only
      cases hp : ops.polygon r1 with
      | error e =>
        refine ⟨[], ?_, by simp⟩
        have hno : ∀ x, x ∈ ({ r1 with geom := none } : Ring) :: rest → x.geom = none := by
          intro x hx
          rcases List.mem_cons.mp hx with rfl | hx
          · rfl
          · exact hrest x hx
        simp only [List.append_nil]
        rw [destroyRings_append, destroyRings_of_no_geom _ hno, List.append_nil]
      | ok hd =>
        simp only
        obtain ⟨fresh, h1, h2⟩ := ih (done ++ [{ r1 with geom := some hd }]) (created ++ [hd])
          hrest
        refine ⟨hd :: fresh, ?_, ?_⟩
        · rw [h1, destroyRings_append]
          simp [destroyRings]
        · rw [h2]
          simp

theorem setAreas_error (ops : RingOps) :
    ∀ (l : List Ring) (e : Stop), setAreas ops l = .error e → e = .fault .nilDereference := by
  intro l
  induction l with
  | nil => intro e h; unfold setAreas at h; exact absurd h (by simp)
  | cons r rest ih =>
    intro e h
    unfold setAreas at h
    cases hr : setArea ops r with
    | error e1 =>
      rw [hr] at h
      unfold setArea at hr
      cases hg : r.geom with
      | none =>
        rw [hg] at hr
        rw [← Except.error.inj h, ← Except.error.inj hr]
      | some hd => rw [hg] at hr; exact absurd hr (by simp)
    | ok r1 =>
      rw [hr] at h
      simp only at h
      cases hrest : setAreas ops rest with
      | error e2 =>
        rw [hrest] at h
        rw [← Except.error.inj h]
        exact ih e2 hrest
      | ok rs => rw [hrest] at h; exact absurd h (by simp)

/-- On every error return of `BuildRings` the deferred `destroyRings` has destroyed
exactly the geometries that `Polygon` created, each once, provided the merger
hands out rings without a geometry. -/
theorem BuildRings_error_destroys_created (ops : RingOps) (rel : Relation)
    (hmerge : ∀ rs r, r ∈ ops.mergeRings rs → r.geom = none) (msg : String)
    (h : (BuildRings ops rel).outcome = .error (.err msg)) :
    (BuildRings ops rel).destroyed.Perm (BuildRings ops rel).created := by
  have hpcc := polygonizeClosed_created ops (memberRings rel) [] [] [] rfl
  unfold BuildRings at h ⊢
  rcases hpc : polygonizeClosed ops (memberRings rel) [] [] [] with
    ⟨complete, incomplete, created, e⟩
  rw [hpc] at h hpcc
  simp only at hpcc
  cases e with
  | some e =>
    simp only
    rw [hpcc]
    exact List.Perm.of_eq (by simp [destroyRings])
  | none =>
    simp only at h ⊢
    by_cases hz : complete.length + (ops.mergeRings incomplete).length = 0
    · rw [if_pos hz]
      simp only
      have h1 : complete = [] := List.length_eq_zero.mp (by omega)
      have h2 : ops.mergeRings incomplete = [] := List.length_eq_zero.mp (by omega)
      rw [← hpcc, h1, h2]
      exact List.Perm.of_eq (by simp [destroyRings])
    · rw [if_neg hz] at h ⊢
      obtain ⟨fresh, hf1, hf2⟩ := polygonizeMerged_created ops (ops.mergeRings incomplete) []
        created (hmerge incomplete)
      rcases hpm : polygonizeMerged ops (ops.mergeRings incomplete) [] created with
        ⟨merged1, created1, e2⟩
      rw [hpm] at h hf1 hf2
      replace hf1 : destroyRings merged1 = destroyRings [] ++ fresh := hf1
      replace hf2 : created1 = created ++ fresh := hf2
      cases e2 with
      | some e2 =>
        simp only
        rw [hf1, hf2, hpcc]
        simp only [destroyRings, List.filterMap_nil, List.nil_append]
        exact List.perm_append_comm
      | none =>
        simp only at h ⊢
        cases hsa : setAreas ops (complete ++ merged1) with
        | error e3 =>
          rw [hsa] at h
          simp only at h
          have := setAreas_error ops _ _ hsa
          rw [this] at h
          exact absurd h (by simp)
        | ok withArea =>
          rw [hsa] at h
          exact absurd h (by simp)

/-! ## C13: `containedBy` stays below the own index, and `ringIsHole` terminates -/

theorem innerLoop_cons (g : GeosOracle) (i a : Nat) (l : List Nat) (st : ClassState) :
    innerLoop g i (a :: l) st =
      match classifyPair g i a st with
      | .error e => .error e
      | .ok st1 => innerLoop g i l st1 := rfl

theorem outerLoop_cons (g : GeosOracle) (n a : Nat) (l : List Nat) (st : ClassState) :
    outerLoop g n (a :: l) st =
      match outerStep g n a st with
      | .error e => .error e
      | .ok st1 => outerLoop g n l st1 := rfl

theorem innerLoop_append (g : GeosOracle) (i : Nat) :
    ∀ (l1 l2 : List Nat) (st : ClassState),
      innerLoop g i (l1 ++ l2) st =
        match innerLoop g i l1 st with
        | .error e => .error e
        | .ok st1 => innerLoop g i l2 st1 := by
  intro l1
  induction l1 with
  | nil => intro l2 st; rfl
  | cons a rest ih =>
    intro l2 st
    show innerLoop g i (a :: (rest ++ l2)) st = _
    rw [innerLoop_cons, innerLoop_cons]
    cases classifyPair g i a st with
    | error e => rfl
    | ok st1 => exact ih l2 st1

theorem outerLoop_append (g : GeosOracle) (n : Nat) :
    ∀ (l1 l2 : List Nat) (st : ClassState),
      outerLoop g n (l1 ++ l2) st =
        match outerLoop g n l1 st with
        | .error e => .error e
        | .ok st1 => outerLoop g n l2 st1 := by
  intro l1
  induction l1 with
  | nil => intro l2 st; rfl
  | cons a rest ih =>
    intro l2 st
    show outerLoop g n (a :: (rest ++ l2)) st = _
    rw [outerLoop_cons, outerLoop_cons]
    cases outerStep g n a st with
    | error e => rfl
    | ok st1 => exact ih l2 st1

/-- The run of the classification loop passes through the state of every pair:
it is the run up to the pair followed by the rest of the run. -/
theorem classify_through_pair (g : GeosOracle) (rings : List Ring) (i j : Nat)
    (hij : i < j) (hj : j ≤ rings.length) :
    classify g rings =
      match stateAtPair g rings i j with
      | .error e => .error e
      | .ok st => runFromPair g rings.length i j st := by
  cases rings with
  | nil => rfl
  | cons r rs =>
    unfold classify stateAtPair
    generalize hn : (r :: rs).length = n
    rw [hn] at hj
    have hsplit : List.range n = List.range i ++ (i :: List.range' (i + 1) (n - (i + 1))) := by
      rw [List.range_eq_range', List.range_eq_range']
      have h1 : List.range' 0 n = List.range' 0 i ++ List.range' (0 + i) (n - i) := by
        rw [List.range'_append_1]
        congr 1
        omega
      rw [h1, Nat.zero_add]
      congr 1
      obtain ⟨d, hd⟩ : ∃ d, n - i = d + 1 := ⟨n - i - 1, by omega⟩
      rw [hd, show n - (i + 1) = d by omega]
      rfl
    have hinner : List.range' (i + 1) (n - (i + 1)) =
        List.range' (i + 1) (j - (i + 1)) ++ List.range' j (n - j) := by
      have h2 := List.range'_append_1 (i + 1) (j - (i + 1)) (n - j)
      rw [show i + 1 + (j - (i + 1)) = j by omega] at h2
      rw [h2]
      congr 1
      omega
    rw [hsplit, outerLoop_append]
    cases outerLoop g n (List.range i) { rings := r :: rs, shells := [0] } with
    | error e => rfl
    | ok st =>
      simp only
      rw [outerLoop_cons]
      unfold outerStep
      by_cases hp : g.prepare i = true
      · rw [if_pos hp, if_pos hp]
        conv_lhs => rw [hinner, innerLoop_append]
        cases innerLoop g i (List.range' (i + 1) (j - (i + 1))) st with
        | error e => rfl
        | ok st1 =>
          simp only
          unfold runFromPair
          cases innerLoop g i (List.range' j (n - j)) st1 with
          | error e => rfl
          | ok st2 =>
            simp only
            cases getRing st2.rings i with
            | error e => rfl
            | ok ri =>
              simp only
              by_cases hroot : ri.containedBy = -1
              · rw [if_pos hroot, if_pos hroot, hinner]
              · rw [if_neg hroot, if_neg hroot, hinner]
      · rw [if_neg hp, if_neg hp]

theorem containedCounter_of_bounded (rings : List Ring)
    (hB : ∀ k, k < rings.length →
      cbOf rings k = -1 ∨ (0 ≤ cbOf rings k ∧ cbOf rings k < (k : Int))) :
    ∀ (fuel idx counter : Nat), idx < rings.length → idx < fuel →
      ∃ hops, containedCounter rings fuel (idx : Int) counter = .ok (counter + hops) ∧
        hops ≤ idx ∧ (chainFrom rings fuel (idx : Int)).length = hops + 1 ∧
        (chainFrom rings fuel (idx : Int)).Pairwise (fun a b => a > b) ∧
        ∀ x, x ∈ chainFrom rings fuel (idx : Int) → 0 ≤ x ∧ x ≤ (idx : Int) := by
  intro fuel
  induction fuel with
  | zero => intro idx _ _ h; exact absurd h (Nat.not_lt_zero idx)
  | succ fuel ih =>
    intro idx counter hidx hfuel
    obtain ⟨r, hg, _, hr, _⟩ := getRing_of_lt rings idx hidx
    unfold containedCounter chainFrom
    rw [hg]
    simp only
    by_cases hroot : r.containedBy = -1
    · rw [if_pos hroot, if_pos hroot]
      refine ⟨0, rfl, Nat.zero_le idx, rfl, List.pairwise_singleton _ _, ?_⟩
      intro x hx
      rw [List.mem_singleton] at hx
      subst hx
      omega
    · rw [if_neg hroot, if_neg hroot]
      rcases hB idx hidx with h | ⟨h0, h1⟩
      · rw [← hr] at h; exact absurd h hroot
      · rw [← hr] at h0 h1
        obtain ⟨p, hp⟩ : ∃ p : Nat, r.containedBy = (p : Int) := ⟨r.containedBy.toNat, by omega⟩
        rw [hp] at h1 ⊢
        obtain ⟨hops, hc, hle, hlen, hpw, hmem⟩ := ih p (counter + 1) (by omega) (by omega)
        refine ⟨hops + 1, ?_, by omega, ?_, ?_, ?_⟩
        · rw [hc]; congr 1; omega
        · rw [List.length_cons, hlen]
        · rw [List.pairwise_cons]
          refine ⟨?_, hpw⟩
          intro x hx
          have := hmem x hx
          omega
        · intro x hx
          rcases List.mem_cons.mp hx with rfl | hx
          · omega
          · have := hmem x hx
            omega

theorem unparent_bounded {st : ClassState} {j : Nat} (hB : Bounded st)
    (hj : j < st.rings.length) :
    ∃ st1, unparent st j = .ok st1 ∧ Bounded st1 ∧ st1.rings.length = st.rings.length := by
  obtain ⟨rj, hgj, _, hcbj, _⟩ := getRing_of_lt st.rings j hj
  unfold unparent
  rw [hgj]
  by_cases hroot : rj.containedBy = -1
  · refine ⟨st, ?_, hB, rfl⟩
    simp [hroot]
  · rcases hB j hj with h | ⟨h0, h1⟩
    · rw [← hcbj] at h; exact absurd h hroot
    · rw [← hcbj] at h0 h1
      obtain ⟨p, hp⟩ : ∃ p : Nat, rj.containedBy = (p : Int) := ⟨rj.containedBy.toNat, by omega⟩
      rw [hp] at h1
      obtain ⟨rp, hgp, _, hcbp, _⟩ := getRing_of_lt st.rings p (by omega)
      simp only [ne_eq, hroot, not_false_eq_true, if_true]
      rw [hp, hgp]
      refine ⟨_, rfl, ?_, by simp⟩
      intro k hk
      simp only [List.length_set] at hk
      simp only [Int.toNat_ofNat, cbOf_set]
      by_cases hkp : p = k ∧ p < st.rings.length
      · rw [if_pos hkp]
        obtain ⟨rfl, _⟩ := hkp
        show rp.containedBy = -1 ∨ _
        rw [hcbp]
        exact hB p hk
      · rw [if_neg hkp]
        exact hB k hk

theorem setParent_bounded {st : ClassState} {i j : Nat} (hB : Bounded st) (hij : i < j)
    (hj : j < st.rings.length) :
    ∃ st1, setParent st i j = .ok st1 ∧ Bounded st1 ∧ st1.rings.length = st.rings.length ∧
      cbOf st1.rings j = (i : Int) := by
  obtain ⟨rj, hgj, _, _, _⟩ := getRing_of_lt st.rings j hj
  unfold setParent
  rw [hgj]
  refine ⟨_, rfl, ?_, by simp, ?_⟩
  · intro k hk
    simp only [List.length_set] at hk
    simp only [cbOf_set]
    by_cases hkj : j = k ∧ j < st.rings.length
    · rw [if_pos hkj]
      obtain ⟨rfl, _⟩ := hkj
      right
      show (0 : Int) ≤ (i : Int) ∧ (i : Int) < (j : Int)
      omega
    · rw [if_neg hkj]
      exact hB k hk
  · rw [cbOf_set, if_pos ⟨rfl, hj⟩]

theorem addHoleOrShell_bounded {st : ClassState} {i j : Nat} (hB : Bounded st)
    (hi : i < st.rings.length) (hj : j < st.rings.length) :
    ∃ st1, addHoleOrShell st i j = .ok st1 ∧ Bounded st1 ∧
      st1.rings.length = st.rings.length := by
  obtain ⟨hops, hc, _, _, _, _⟩ :=
    containedCounter_of_bounded st.rings hB (st.rings.length + 1) j 0 hj (by omega)
  obtain ⟨ri, hgi, _, hcbi, _⟩ := getRing_of_lt st.rings i hi
  unfold addHoleOrShell ringIsHole
  rw [hc]
  simp only
  cases hpar : (0 + hops) % 2 == 1 with
  | false => exact ⟨_, rfl, hB, rfl⟩
  | true =>
    simp only
    rw [hgi]
    refine ⟨_, rfl, ?_, by simp⟩
    intro k hk
    simp only [List.length_set] at hk
    simp only [cbOf_set]
    by_cases hki : i = k ∧ i < st.rings.length
    · rw [if_pos hki]
      obtain ⟨rfl, _⟩ := hki
      show ri.containedBy = -1 ∨ _
      rw [hcbi]
      exact hB i hk
    · rw [if_neg hki]
      exact hB k hk

theorem classifyPair_bounded {g : GeosOracle} {st : ClassState} {i j : Nat} (hB : Bounded st)
    (hij : i < j) (hj : j < st.rings.length) :
    ∃ st1, classifyPair g i j st = .ok st1 ∧ Bounded st1 ∧
      st1.rings.length = st.rings.length := by
  unfold classifyPair
  by_cases hc : g.preparedContains i j = true
  · rw [if_pos hc]
    obtain ⟨st1, h1, hB1, hl1⟩ := unparent_bounded hB hj
    obtain ⟨st2, h2, hB2, hl2, _⟩ := setParent_bounded (i := i) hB1 hij (by omega)
    obtain ⟨st3, h3, hB3, hl3⟩ := addHoleOrShell_bounded (i := i) (j := j) hB2 (by omega)
      (by omega)
    refine ⟨st3, ?_, hB3, by omega⟩
    rw [h1]
    simp only
    rw [h2]
    exact h3
  · rw [if_neg hc]
    exact ⟨st, rfl, hB, rfl⟩

theorem innerLoop_bounded {g : GeosOracle} {i : Nat} :
    ∀ (l : List Nat) (st : ClassState), (∀ j, j ∈ l → i < j ∧ j < st.rings.length) →
      Bounded st →
      ∃ st1, innerLoop g i l st = .ok st1 ∧ Bounded st1 ∧
        st1.rings.length = st.rings.length := by
  intro l
  induction l with
  | nil => intro st _ hB; exact ⟨st, rfl, hB, rfl⟩
  | cons a rest ih =>
    intro st hl hB
    obtain ⟨ha1, ha2⟩ := hl a (List.mem_cons_self a rest)
    obtain ⟨st1, h1, hB1, hl1⟩ := classifyPair_bounded (g := g) hB ha1 ha2
    obtain ⟨st2, h2, hB2, hl2⟩ := ih st1
      (fun j hj => by rw [hl1]; exact hl j (List.mem_cons_of_mem a hj)) hB1
    refine ⟨st2, ?_, hB2, by omega⟩
    rw [innerLoop_cons, h1]
    exact h2

theorem outerStep_bounded {g : GeosOracle} {st : ClassState} {i : Nat} (hB : Bounded st)
    (hi : i < st.rings.length) (hp : g.prepare i = true) :
    ∃ st1, outerStep g st.rings.length i st = .ok st1 ∧ Bounded st1 ∧
      st1.rings.length = st.rings.length := by
  obtain ⟨st1, h1, hB1, hl1⟩ := innerLoop_bounded (g := g) (i := i)
    (List.range' (i + 1) (st.rings.length - (i + 1))) st
    (fun j hj => by
      rw [List.mem_range'_1] at hj
      omega) hB
  obtain ⟨ri, hgi, _, _, _⟩ := getRing_of_lt st1.rings i (by omega)
  unfold outerStep
  rw [if_pos hp, h1]
  simp only
  rw [hgi]
  simp only
  by_cases hroot : ri.containedBy = -1
  · rw [if_pos hroot]
    exact ⟨_, rfl, hB1, hl1⟩
  · rw [if_neg hroot]
    exact ⟨_, rfl, hB1, hl1⟩

theorem outerLoop_bounded {g : GeosOracle} (n : Nat) :
    ∀ (l : List Nat) (st : ClassState), st.rings.length = n →
      (∀ i, i ∈ l → i < n ∧ g.prepare i = true) → Bounded st →
      ∃ st1, outerLoop g n l st = .ok st1 ∧ Bounded st1 ∧ st1.rings.length = n := by
  intro l
  induction l with
  | nil => intro st hn _ hB; exact ⟨st, rfl, hB, hn⟩
  | cons a rest ih =>
    intro st hn hl hB
    obtain ⟨ha1, ha2⟩ := hl a (List.mem_cons_self a rest)
    obtain ⟨st1, h1, hB1, hl1⟩ := outerStep_bounded (g := g) hB (by omega) ha2
    rw [hn] at h1
    obtain ⟨st2, h2, hB2, hl2⟩ := ih st1 (by omega)
      (fun i hi => hl i (List.mem_cons_of_mem a hi)) hB1
    refine ⟨st2, ?_, hB2, hl2⟩
    rw [outerLoop_cons, h1]
    exact h2

theorem bounded_init (rings : List Ring) (hroot : ∀ r, r ∈ rings → r.containedBy = -1) :
    Bounded { rings := rings, shells := [0] } := by
  intro k hk
  left
  show cbOf rings k = -1
  unfold cbOf
  have hk2 : k < rings.length := hk
  rw [List.getElem?_eq_getElem hk2]
  exact hroot _ (List.getElem_mem hk2)

/-- C13: started from rings whose `containedBy` is `-1`, the classification loop
reaches every pair `(i, j)` (as long as `Prepare` succeeds) in a state where
every `containedBy` is `-1` or an index below the own index of the ring, and so
are the states after each statement of the loop body; the call
`ringIsHole(rings, j)` of the body returns, reads a strictly decreasing chain of
indexes within the slice, and counts at most `j` hops. The final state of the
loop is bounded in the same way. -/
theorem C13_containedBy_below_index_ringIsHole_terminates (g : GeosOracle)
    (rings : List Ring) (hne : rings ≠ []) (hroot : ∀ r, r ∈ rings → r.containedBy = -1) :
    (∀ i j, i < j → j < rings.length → (∀ k, k ≤ i → g.prepare k = true) →
      ∃ st, stateAtPair g rings i j = .ok st ∧ st.rings.length = rings.length ∧ Bounded st ∧
        (g.preparedContains i j = true →
          ∃ st1 st2 st3 hops,
            unparent st j = .ok st1 ∧ Bounded st1 ∧
            setParent st1 i j = .ok st2 ∧ Bounded st2 ∧
            containedCounter st2.rings (st2.rings.length + 1) (j : Int) 0 = .ok hops ∧
            ringIsHole st2.rings j = .ok (hops % 2 == 1) ∧
            hops ≤ j ∧
            (chainFrom st2.rings (st2.rings.length + 1) (j : Int)).length = hops + 1 ∧
            (chainFrom st2.rings (st2.rings.length + 1) (j : Int)).Pairwise
              (fun a b => a > b) ∧
            (∀ x, x ∈ chainFrom st2.rings (st2.rings.length + 1) (j : Int) →
              0 ≤ x ∧ x < (rings.length : Int)) ∧
            addHoleOrShell st2 i j = .ok st3 ∧ Bounded st3 ∧
            classifyPair g i j st = .ok st3)) ∧
    ((∀ k, k < rings.length → g.prepare k = true) →
      ∃ st, classify g rings = .ok st ∧ st.rings.length = rings.length ∧ Bounded st) := by
  have hB0 := bounded_init rings hroot
  constructor
  · intro i j hij hj hprep
    obtain ⟨st0, h0, hB0', hl0⟩ := outerLoop_bounded (g := g) rings.length (List.range i)
      { rings := rings, shells := [0] } rfl
      (fun k hk => by
        rw [List.mem_range] at hk
        exact ⟨by omega, hprep k (by omega)⟩) hB0
    obtain ⟨st, h1, hB, hl⟩ := innerLoop_bounded (g := g) (i := i)
      (List.range' (i + 1) (j - (i + 1))) st0
      (fun x hx => by
        rw [List.mem_range'_1] at hx
        omega) hB0'
    have hlen : st.rings.length = rings.length := by omega
    refine ⟨st, ?_, hlen, hB, ?_⟩
    · cases rings with
      | nil => exact absurd rfl hne
      | cons r rs =>
        unfold stateAtPair
        rw [h0]
        simp only
        rw [if_pos (hprep i (Nat.le_refl i))]
        exact h1
    · intro hc
      obtain ⟨st1, hu, hB1, hl1⟩ := unparent_bounded (j := j) hB (by omega)
      obtain ⟨st2, hs, hB2, hl2, _⟩ := setParent_bounded (i := i) (j := j) hB1 hij (by omega)
      obtain ⟨hops, hcc, hle, hclen, hpw, hmem⟩ :=
        containedCounter_of_bounded st2.rings hB2 (st2.rings.length + 1) j 0 (by omega)
          (by omega)
      rw [Nat.zero_add] at hcc
      obtain ⟨st3, ha, hB3, _⟩ := addHoleOrShell_bounded (i := i) (j := j) hB2 (by omega)
        (by omega)
      refine ⟨st1, st2, st3, hops, hu, hB1, hs, hB2, hcc, ?_, hle, hclen, hpw, ?_, ha, hB3, ?_⟩
      · unfold ringIsHole
        rw [hcc]
      · intro x hx
        have := hmem x hx
        omega
      · unfold classifyPair
        rw [if_pos hc, hu]
        simp only
        rw [hs]
        exact ha
  · intro hprep
    obtain ⟨st, h, hB, hl⟩ := outerLoop_bounded (g := g) rings.length (List.range rings.length)
      { rings := rings, shells := [0] } rfl
      (fun k hk => by
        rw [List.mem_range] at hk
        exact ⟨hk, hprep k hk⟩) hB0
    refine ⟨st, ?_, hl, hB⟩
    cases rings with
    | nil => exact absurd rfl hne
    | cons r rs =>
      unfold classify
      exact h

theorem C13_witness :
    ∃ st, stateAtPair nestedGeos [freshRing, freshRing, freshRing] 1 2 = .ok st ∧
      st.rings.length = [freshRing, freshRing, freshRing].length ∧ Bounded st ∧
      (nestedGeos.preparedContains 1 2 = true →
        ∃ st1 st2 st3 hops,
          unparent st 2 = .ok st1 ∧ Bounded st1 ∧
          setParent st1 1 2 = .ok st2 ∧ Bounded st2 ∧
          containedCounter st2.rings (st2.rings.length + 1) ((2 : Nat) : Int) 0 = .ok hops ∧
          ringIsHole st2.rings 2 = .ok (hops % 2 == 1) ∧
          hops ≤ 2 ∧
          (chainFrom st2.rings (st2.rings.length + 1) ((2 : Nat) : Int)).length = hops + 1 ∧
          (chainFrom st2.rings (st2.rings.length + 1) ((2 : Nat) : Int)).Pairwise
            (fun a b => a > b) ∧
          (∀ x, x ∈ chainFrom st2.rings (st2.rings.length + 1) ((2 : Nat) : Int) →
            0 ≤ x ∧ x < (([freshRing, freshRing, freshRing].length : Nat) : Int)) ∧
          addHoleOrShell st2 1 2 = .ok st3 ∧ Bounded st3 ∧
          classifyPair nestedGeos 1 2 st = .ok st3) :=
  (C13_containedBy_below_index_ringIsHole_terminates nestedGeos
    [freshRing, freshRing, freshRing] (by decide) (by decide)).1 1 2 (by decide) (by decide)
    (fun _ _ => rfl)

/-! ## C11: the two passes of the way writer -/

theorem filter_isInsert_insertRows (tables : List String) (w : Way) (geom : Nat) :
    (insertRows tables w geom).filter WayEvent.isInsert = insertRows tables w geom := by
  rw [List.filter_eq_self]
  intro e he
  unfold insertRows at he
  rw [List.mem_map] at he
  obtain ⟨t, _, rfl⟩ := he
  rfl

theorem filter_isInsert_geomErrorLog (e : GeomError) :
    (geomErrorLog e).filter WayEvent.isInsert = [] := by
  unfold geomErrorLog
  cases e.level with
  | none => rfl
  | some l =>
    by_cases h : l ≤ 0
    · simp [h]
    · simp [h, WayEvent.isInsert]

theorem length_insertRows (tables : List String) (w : Way) (geom : Nat) :
    (insertRows tables w geom).length = tables.length := by
  unfold insertRows
  exact List.length_map _ _

theorem polygonPass_inserts (env : WayEnv) (w : Way) (g2 : Nat) (hclosed : env.isClosed w = true)
    (hmatch : env.polygonMatcher w ≠ []) (hgeom : env.polygonWKB w = .ok g2) :
    polygonPass env w = insertRows (env.polygonMatcher w) w g2 := by
  unfold polygonPass
  rw [if_pos hclosed, if_pos (List.length_pos.mpr hmatch), hgeom]

/-- C11 (as stated, refuted): a closed way that is not registered, whose
coordinates are filled, that matches a polygon table and whose polygon geometry
builds, inserts no row at all when it also matches a linestring table and the
linestring geometry fails to build. -/
theorem C11_failed_linestring_skips_polygon_pass :
    failingLineStringEnv.isInserted closedWay.Id = .ok false ∧
    failingLineStringEnv.fillWay closedWay = .ok closedWay ∧
    failingLineStringEnv.isClosed closedWay = true ∧
    failingLineStringEnv.polygonMatcher closedWay = ["buildings"] ∧
    failingLineStringEnv.polygonWKB closedWay = .ok 2 ∧
    failingLineStringEnv.lineStringWKB closedWay =
      .error { msg := "linestring", level := some 1 } ∧
    processWay failingLineStringEnv closedWay = [.addWays, .log "linestring"] ∧
    (processWay failingLineStringEnv closedWay).filter WayEvent.isInsert = [] := by
  decide

/-- C11 (amended): for a way that is not in the inserted-ways registry and whose
coordinates were filled, the polygon pass runs whenever the linestring pass had
no matches or built its geometry: if then the way is closed, the polygon matcher
yields matches and the polygon geometry builds, one row per polygon match is
inserted, after the rows of the linestring pass; when both passes succeed the
way inserts |linestring matches| + |polygon matches| rows. When the linestring
matcher yields matches and the linestring geometry fails to build, the writer
goes on with the next way: nothing is inserted for this way. -/
theorem C11_polygon_pass_after_linestring_pass (env : WayEnv) (w w1 : Way)
    (hreg : env.isInserted w.Id = .ok false) (hfill : env.fillWay w = .ok w1) :
    (∀ g2, env.lineStringMatcher w1 = [] → env.isClosed w1 = true →
        env.polygonMatcher w1 ≠ [] → env.polygonWKB w1 = .ok g2 →
        (processWay env w).filter WayEvent.isInsert =
          insertRows (env.polygonMatcher w1) w1 g2) ∧
    (∀ g1 g2, env.lineStringMatcher w1 ≠ [] → env.lineStringWKB w1 = .ok g1 →
        env.isClosed w1 = true → env.polygonMatcher w1 ≠ [] → env.polygonWKB w1 = .ok g2 →
        (processWay env w).filter WayEvent.isInsert =
          insertRows (env.lineStringMatcher w1) w1 g1 ++
            insertRows (env.polygonMatcher w1) w1 g2 ∧
        ((processWay env w).filter WayEvent.isInsert).length =
          (env.lineStringMatcher w1).length + (env.polygonMatcher w1).length) ∧
    (∀ e, env.lineStringMatcher w1 ≠ [] → env.lineStringWKB w1 = .error e →
        (processWay env w).filter WayEvent.isInsert = []) := by
  have hproc : processWay env w =
      if (env.lineStringMatcher w1).length > 0 then
        match env.lineStringWKB w1 with
        | .error e => [.addWays] ++ geomErrorLog e
        | .ok geom =>
          [.addWays] ++ insertRows (env.lineStringMatcher w1) w1 geom ++ polygonPass env w1
      else [.addWays] ++ polygonPass env w1 := by
    unfold processWay
    rw [hreg]
    simp only
    rw [hfill]
  refine ⟨?_, ?_, ?_⟩
  · intro g2 hls hclosed hmatch hgeom
    rw [hproc, if_neg (by rw [hls]; simp), polygonPass_inserts env w1 g2 hclosed hmatch hgeom,
      List.filter_append, filter_isInsert_insertRows]
    rfl
  · intro g1 g2 hls hg1 hclosed hmatch hgeom
    have hins : (processWay env w).filter WayEvent.isInsert =
        insertRows (env.lineStringMatcher w1) w1 g1 ++
          insertRows (env.polygonMatcher w1) w1 g2 := by
      rw [hproc, if_pos (List.length_pos.mpr hls), hg1]
      simp only
      rw [polygonPass_inserts env w1 g2 hclosed hmatch hgeom, List.filter_append,
        List.filter_append, filter_isInsert_insertRows, filter_isInsert_insertRows]
      rfl
    refine ⟨hins, ?_⟩
    rw [hins, List.length_append, length_insertRows, length_insertRows]
  · intro e hls herr
    rw [hproc, if_pos (List.length_pos.mpr hls), herr]
    simp only
    rw [List.filter_append, filter_isInsert_geomErrorLog]
    rfl

theorem C11_witness :
    (processWay exampleWayEnv closedWay).filter WayEvent.isInsert =
        insertRows (exampleWayEnv.lineStringMatcher closedWay) closedWay 1 ++
          insertRows (exampleWayEnv.polygonMatcher closedWay) closedWay 2 ∧
      ((processWay exampleWayEnv closedWay).filter WayEvent.isInsert).length =
        (exampleWayEnv.lineStringMatcher closedWay).length +
          (exampleWayEnv.polygonMatcher closedWay).length :=
  (C11_polygon_pass_after_linestring_pass exampleWayEnv closedWay closedWay (by decide)
    (by decide)).2.1 1 2 (by decide) (by decide) (by decide) (by decide) (by decide)

/-! ## C12: the filters of `ElementFilters` -/

/-- What the exclude closure computes. -/
theorem excludeFilter_false_iff (k val : String) (tags : Tags) :
    excludeFilter (k, val) tags = false ↔
      (∃ v, tagsGet? tags k = some v ∧ (val = "__any__" ∨ v = val)) ∨
      (tagsGet? tags k = none ∧ val = "__nil__") := by
  unfold excludeFilter
  cases h : tagsGet? tags k with
  | none => simp
  | some v =>
    by_cases hc : val = "__any__" ∨ v = val
    · simp [hc]
    · simp [hc]

/-- What the include closure computes: it has no case for `__nil__`. -/
theorem includeFilter_true_iff (k val : String) (tags : Tags) :
    includeFilter (k, val) tags = true ↔
      ∃ v, tagsGet? tags k = some v ∧ (val = "__any__" ∨ v = val) := by
  unfold includeFilter
  cases h : tagsGet? tags k with
  | none => simp
  | some v =>
    by_cases hc : val = "__any__" ∨ v = val
    · simp [hc]
    · simp [hc]

/-- The exclude closure agrees with the matching of C12 on every tag map in
which the key does not carry the text `__nil__` itself. -/
theorem excludeFilter_matches (k val : String) (tags : Tags)
    (hlit : tagsGet? tags k ≠ some "__nil__") :
    excludeFilter (k, val) tags = false ↔ specPairMatches k val tags = true := by
  rw [excludeFilter_false_iff]
  unfold specPairMatches
  cases h : tagsGet? tags k with
  | none => simp
  | some v =>
    rw [h] at hlit
    have hv : v ≠ "__nil__" := fun e => hlit (by rw [e])
    by_cases hany : val = "__any__"
    · subst hany; simp
    · by_cases hnil : val = "__nil__"
      · subst hnil; simp [hv]
      · simp [hany, hnil]

/-- The include closure agrees with the matching of C12 for every value other
than `__nil__`. -/
theorem includeFilter_matches (k val : String) (tags : Tags) (hval : val ≠ "__nil__") :
    includeFilter (k, val) tags = true ↔ specPairMatches k val tags = true := by
  rw [includeFilter_true_iff]
  unfold specPairMatches
  cases h : tagsGet? tags k with
  | none => simp [hval]
  | some v =>
    by_cases hany : val = "__any__"
    · subst hany; simp
    · simp [hany, hval]

/-- C12 (failing inputs): for the include pair `(k, __nil__)` and tags without
`k` the pair matches, but the filter that `ElementFilters` generates returns
false, whatever the scope of the loop variable. With one loop variable per
loop, the filters generated for the exclude pairs `(a, x)` and `(b, y)` both
test `(b, y)`: on the tags `a=x` the pair `(a, x)` matches, but its filter
returns true. -/
theorem C12_include_nil_and_captured_pair :
    specPairMatches "k" "__nil__" [] = true ∧
    runFilters true includeNilTables "t" [] = [false] ∧
    runFilters false includeNilTables "t" [] = [false] ∧
    specPairMatches "a" "x" [("a", "x")] = true ∧
    specPairMatches "b" "y" [("a", "x")] = false ∧
    runFilters false twoExcludeTables "t" [("a", "x")] = [true, true] ∧
    runFilters true twoExcludeTables "t" [("a", "x")] = [false, true] := by
  decide

/-! ## C9: `relationTags` returns a new map with the entries of `relTags` -/

theorem assign_last (ms : List Tags) (acc : Tags) (k v : String) :
    TagHeap.assign { maps := ms ++ [acc] } ms.length k v =
      { maps := ms ++ [tagsSet acc k v] } := by
  unfold TagHeap.assign
  simp

theorem assign_loop_last (ms : List Tags) :
    ∀ (l : Tags) (acc : Tags),
      l.foldl (fun hp kv => TagHeap.assign hp ms.length kv.1 kv.2) { maps := ms ++ [acc] } =
        { maps := ms ++ [l.foldl (fun result kv => tagsSet result kv.1 kv.2) acc] } := by
  intro l
  induction l with
  | nil => intro acc; rfl
  | cons kv rest ih =>
    intro acc
    rw [List.foldl_cons, assign_last, ih, List.foldl_cons]

/-- The call allocates one map behind the maps that exist and fills it with the
copy loop; nothing else changes. -/
theorem relationTagsIn_eq (h : TagHeap) (relTags wayTags : TagsRef) :
    relationTagsIn h relTags wayTags =
      ({ maps := h.maps ++ [relationTags (h.read relTags) (h.read wayTags)] },
        some h.maps.length) := by
  unfold relationTagsIn TagHeap.make relationTags
  simp only
  rw [assign_loop_last]

theorem read_old_after_append (ms : List Tags) (t : Tags) (ref : TagsRef)
    (hold : ∀ b, ref = some b → b < ms.length) :
    TagHeap.read { maps := ms ++ [t] } ref = TagHeap.read { maps := ms } ref := by
  cases ref with
  | none => rfl
  | some b =>
    have hb := hold b rfl
    unfold TagHeap.read
    simp only
    rw [List.getElem?_append_left hb]

theorem read_new_after_append (ms : List Tags) (t : Tags) :
    TagHeap.read { maps := ms ++ [t] } (some ms.length) = t := by
  unfold TagHeap.read
  simp

/-- C9: `relationTags(relTags, wayTags)` returns a new map: its address is the
first free one, so it is none of the maps that existed before the call (neither
`relTags` nor `wayTags`), every map that existed keeps its entries, and a later
write to the result changes none of them. For a well-formed `relTags` the new
map has exactly the keys and values of `relTags` (`name` and `type` included);
the result does not depend on `wayTags`, and it is empty for empty `relTags`
whatever `wayTags` holds. -/
theorem C9_relationTags_new_map_with_relTags_entries (h : TagHeap)
    (relTags wayTags : TagsRef)
    (hwf : ((h.read relTags).map Prod.fst).Nodup)
    (hrel : ∀ b, relTags = some b → b < h.maps.length)
    (hway : ∀ b, wayTags = some b → b < h.maps.length) :
    (relationTagsIn h relTags wayTags).2 = some h.maps.length ∧
    (relationTagsIn h relTags wayTags).2 ≠ relTags ∧
    (relationTagsIn h relTags wayTags).2 ≠ wayTags ∧
    (∀ ref : TagsRef, (∀ b, ref = some b → b < h.maps.length) →
      (relationTagsIn h relTags wayTags).2 ≠ ref ∧
      (relationTagsIn h relTags wayTags).1.read ref = h.read ref ∧
      ∀ k v, ((relationTagsIn h relTags wayTags).1.assign h.maps.length k v).read ref =
        h.read ref) ∧
    (∀ k, tagsGet? ((relationTagsIn h relTags wayTags).1.read
        (relationTagsIn h relTags wayTags).2) k = tagsGet? (h.read relTags) k) ∧
    (((relationTagsIn h relTags wayTags).1.read
        (relationTagsIn h relTags wayTags).2).map Prod.fst).Nodup ∧
    (∀ wayTags2 : TagsRef,
      relationTagsIn h relTags wayTags2 = relationTagsIn h relTags wayTags) ∧
    (h.read relTags = [] →
      (relationTagsIn h relTags wayTags).1.read (relationTagsIn h relTags wayTags).2 = []) := by
  have hnew : ∀ ref : TagsRef, (∀ b, ref = some b → b < h.maps.length) →
      some h.maps.length ≠ ref := by
    intro ref hold heq
    have := hold h.maps.length heq.symm
    omega
  have hcopy := relationTags_copies_relTags (h.read relTags) (h.read wayTags) hwf
  rw [relationTagsIn_eq]
  refine ⟨rfl, hnew relTags hrel, hnew wayTags hway, ?_, ?_, ?_, ?_, ?_⟩
  · intro ref hold
    refine ⟨hnew ref hold, read_old_after_append _ _ ref hold, ?_⟩
    intro k v
    show (TagHeap.assign { maps := h.maps ++ [relationTags (h.read relTags) (h.read wayTags)] }
      h.maps.length k v).read ref = h.read ref
    rw [assign_last, read_old_after_append _ _ ref hold]
  · intro k
    show tagsGet? (TagHeap.read
      { maps := h.maps ++ [relationTags (h.read relTags) (h.read wayTags)] }
      (some h.maps.length)) k = _
    rw [read_new_after_append]
    exact hcopy.1 k
  · show ((TagHeap.read
      { maps := h.maps ++ [relationTags (h.read relTags) (h.read wayTags)] }
      (some h.maps.length)).map Prod.fst).Nodup
    rw [read_new_after_append]
    exact hcopy.2.1
  · intro wayTags2
    rw [relationTagsIn_eq]
    rfl
  · intro hempty
    show TagHeap.read
      { maps := h.maps ++ [relationTags (h.read relTags) (h.read wayTags)] }
      (some h.maps.length) = []
    rw [read_new_after_append, hempty]
    rfl

theorem C9_witness :
    relationTagsIn emptyRelHeap (some 0) (some 1) =
      ({ maps := [[], [("highway", "primary")], []] }, some 2) ∧
    ((relationTagsIn exampleHeap (some 0) (some 1)).2 = some exampleHeap.maps.length ∧
    (relationTagsIn exampleHeap (some 0) (some 1)).2 ≠ some 0 ∧
    (relationTagsIn exampleHeap (some 0) (some 1)).2 ≠ some 1 ∧
    (∀ ref : TagsRef, (∀ b, ref = some b → b < exampleHeap.maps.length) →
      (relationTagsIn exampleHeap (some 0) (some 1)).2 ≠ ref ∧
      (relationTagsIn exampleHeap (some 0) (some 1)).1.read ref = exampleHeap.read ref ∧
      ∀ k v, ((relationTagsIn exampleHeap (some 0) (some 1)).1.assign
          exampleHeap.maps.length k v).read ref = exampleHeap.read ref) ∧
    (∀ k, tagsGet? ((relationTagsIn exampleHeap (some 0) (some 1)).1.read
        (relationTagsIn exampleHeap (some 0) (some 1)).2) k =
      tagsGet? (exampleHeap.read (some 0)) k) ∧
    (((relationTagsIn exampleHeap (some 0) (some 1)).1.read
        (relationTagsIn exampleHeap (some 0) (some 1)).2).map Prod.fst).Nodup ∧
    (∀ wayTags2 : TagsRef,
      relationTagsIn exampleHeap (some 0) wayTags2 =
        relationTagsIn exampleHeap (some 0) (some 1)) ∧
    (exampleHeap.read (some 0) = [] →
      (relationTagsIn exampleHeap (some 0) (some 1)).1.read
        (relationTagsIn exampleHeap (some 0) (some 1)).2 = [])) :=
  ⟨by decide,
    C9_relationTags_new_map_with_relTags_entries exampleHeap (some 0) (some 1) (by decide)
      (fun b hb => by cases hb; decide) (fun b hb => by cases hb; decide)⟩

end Imposm
